import Mathlib

/-!
Verification of the speaker-attribution and re-segmentation engine of
`transcribe_gui.py` (with the word-assignment helper of
`scripts/dev/test_pyannote.py`).

Modelling conventions used throughout this development:
* Python strings are modelled as `List Char`; Python `str.strip()` is
  modelled as stripping ASCII whitespace from both ends.
* Python floats (times, durations, progress percentages) are modelled as
  exact rationals `ℚ`; the properties verified here are order- and
  equality-based, so exact arithmetic is the faithful reading.
* A Python value that may be `None` is modelled as an `Option`.
* Whisper `Word` objects carry `word` (text), `start`, `end` and a
  `speaker` attribute added by the diarization stage; the `end` field is
  called `stop` here because `end` is a Lean keyword.
-/

/-- ASCII whitespace predicate, modelling the characters removed by
Python's `str.strip()` on the transcripts handled here. -/
def isSpaceChar (c : Char) : Bool :=
  c = ' ' || c = '\t' || c = '\n' || c = '\r' || c = '\x0b' || c = '\x0c'

/-- Model of Python `str.strip()`: drop whitespace from both ends. -/
def pyStrip (s : List Char) : List Char :=
  ((s.dropWhile isSpaceChar).reverse.dropWhile isSpaceChar).reverse

/-- Remove every whitespace character, used to compare texts
"ignoring whitespace". -/
def noWS (s : List Char) : List Char :=
  s.filter (fun c => !isSpaceChar c)

/-- Model of Python `' '.join(parts)`. -/
def joinSpace : List (List Char) → List Char
  | [] => []
  | [s] => s
  | s :: rest => s ++ ' ' :: joinSpace rest

/-- Word token produced by the transcription model: text, start/end times
and the speaker attribute assigned in place by the diarization stage
(`None` when unassigned).  Mirrors the attributes `word`, `start`, `end`,
`speaker` used by `transcribe_gui.py`. -/
structure Word where
  word : List Char
  start : ℚ
  stop : ℚ
  speaker : Option (List Char)
deriving DecidableEq, Repr

/-- Output transcript segment, mirroring the `SegmentWithSpeaker` class of
`transcribe_gui.py` (fields `text`, `start`, `end`, `speaker`). -/
structure Seg where
  text : List Char
  start : ℚ
  stop : ℚ
  speaker : Option (List Char)
deriving DecidableEq, Repr

/-- End time of the last word of a run, i.e. Python `current_words[-1].end`
(only used on non-empty lists). -/
def lastEnd : List Word → ℚ
  | [] => 0
  | [w] => w.stop
  | _ :: w :: ws => lastEnd (w :: ws)

/-- Text of a closed run: Python
`' '.join([w.word.strip() for w in current_words])`. -/
def runText (ws : List Word) : List Char :=
  joinSpace (ws.map (fun w => pyStrip w.word))

/-- Segment closed from an accumulated run, as built at lines 1227–1229 and
1243–1245 of `transcribe_gui.py`. -/
def mkSeg (curSpeaker : Option (List Char)) (curWords : List Word)
    (curStart : ℚ) : Seg :=
  ⟨runText curWords, curStart, lastEnd curWords, curSpeaker⟩

/-- Loop body of the re-segmentation pass of `transcribe_gui.py`
(lines 1218–1245): state is `current_speaker`, `current_words`,
`current_start` and the accumulated `new_segments`; the last argument is
the remaining word stream. -/
def resegAux (curSpeaker : Option (List Char)) (curWords : List Word)
    (curStart : ℚ) (segs : List Seg) : List Word → List Seg
  | [] =>
    if curWords.isEmpty then segs else segs ++ [mkSeg curSpeaker curWords curStart]
  | w :: rest =>
    if w.speaker ≠ curSpeaker ∧ ¬curWords.isEmpty then
      resegAux w.speaker [w] w.start (segs ++ [mkSeg curSpeaker curWords curStart]) rest
    else
      resegAux (if curWords.isEmpty then w.speaker else curSpeaker)
        (curWords ++ [w]) curStart segs rest

/-- Resegmenter of `transcribe_gui.py` lines 1218–1248: initial state is
`current_speaker = None`, `current_words = []`,
`current_start = all_words[0].start if all_words else 0`,
`new_segments = []`. -/
def resegment (allWords : List Word) : List Seg :=
  resegAux none [] (match allWords with | [] => 0 | w :: _ => w.start) [] allWords

/-- Longest leading run of words whose speaker equals `spk`, together with
the remainder of the list. -/
def takeRun (spk : Option (List Char)) : List Word → List Word × List Word
  | [] => ([], [])
  | w :: ws =>
    if w.speaker = spk then
      ((w :: (takeRun spk ws).1), (takeRun spk ws).2)
    else ([], w :: ws)

theorem takeRun_snd_length (spk : Option (List Char)) :
    ∀ ws : List Word, (takeRun spk ws).2.length ≤ ws.length := by
  intro ws
  induction ws with
  | nil => simp [takeRun]
  | cons w ws ih =>
    by_cases h : w.speaker = spk
    · simp only [takeRun, if_pos h]
      exact Nat.le_succ_of_le ih
    · simp [takeRun, if_neg h]

/-- Decomposition of a word list into its maximal runs of consecutive
words sharing one speaker label. -/
def runs : List Word → List (List Word)
  | [] => []
  | w :: ws =>
    (w :: (takeRun w.speaker ws).1) :: runs (takeRun w.speaker ws).2
termination_by l => l.length
decreasing_by
  exact Nat.lt_succ_of_le (takeRun_snd_length _ _)

/-- Speaker of the first word of a run (`none` for the empty run). -/
def headSpeaker : List Word → Option (List Char)
  | [] => none
  | w :: _ => w.speaker

/-- Start time of the first word of a run (0 for the empty run). -/
def headStart : List Word → ℚ
  | [] => 0
  | w :: _ => w.start

/-- Segment a single maximal run closes into. -/
def segOfRun (r : List Word) : Seg :=
  mkSeg (headSpeaker r) r (headStart r)

theorem takeRun_append (spk : Option (List Char)) :
    ∀ ws : List Word, (takeRun spk ws).1 ++ (takeRun spk ws).2 = ws := by
  intro ws
  induction ws with
  | nil => simp [takeRun]
  | cons w ws ih =>
    by_cases h : w.speaker = spk
    · simp only [takeRun, if_pos h, List.cons_append, ih]
    · simp [takeRun, if_neg h]

theorem takeRun_uniform (spk : Option (List Char)) :
    ∀ ws : List Word, ∀ w ∈ (takeRun spk ws).1, w.speaker = spk := by
  intro ws
  induction ws with
  | nil => simp [takeRun]
  | cons w ws ih =>
    by_cases h : w.speaker = spk
    · simp only [takeRun, if_pos h]
      intro u hu
      rcases List.mem_cons.mp hu with h1 | h2
      · simpa [h1] using h
      · exact ih u h2
    · simp [takeRun, if_neg h]

theorem takeRun_head_ne (spk : Option (List Char)) (ws : List Word) :
    headSpeaker (takeRun spk ws).2 ≠ some [] → True := by
  intro _; trivial

/-- Words of the remainder start with a different speaker (when the
remainder is non-empty). -/
theorem takeRun_snd_head (spk : Option (List Char)) :
    ∀ ws : List Word, ∀ w ws', (takeRun spk ws).2 = w :: ws' → w.speaker ≠ spk := by
  intro ws
  induction ws with
  | nil => intro w ws' h; simp [takeRun] at h
  | cons v vs ih =>
    intro w ws' h
    by_cases hv : v.speaker = spk
    · simp only [takeRun, if_pos hv] at h
      exact ih w ws' h
    · simp only [takeRun, if_neg hv] at h
      obtain ⟨h1, _⟩ := List.cons.inj h
      exact h1 ▸ hv

/-- Closing a pending run: running `resegAux` with a non-empty accumulated
run whose words all carry speaker `spk` first extends the run with the
leading same-speaker words of the rest, closes it, and then processes the
remaining maximal runs independently. -/
theorem resegAux_run :
    ∀ (rest : List Word) (spk : Option (List Char)) (cw : List Word) (cs : ℚ)
      (segs : List Seg), cw ≠ [] → (∀ w ∈ cw, w.speaker = spk) →
    resegAux spk cw cs segs rest =
      segs ++ mkSeg spk (cw ++ (takeRun spk rest).1) cs ::
        (runs (takeRun spk rest).2).map segOfRun := by
  intro rest
  induction rest with
  | nil =>
    intro spk cw cs segs hne _
    simp [resegAux, takeRun, runs, List.isEmpty_iff, hne]
  | cons w rest ih =>
    intro spk cw cs segs hne huni
    by_cases hspk : w.speaker = spk
    · have hcond : ¬(w.speaker ≠ spk ∧ ¬cw.isEmpty) := by
        simp [hspk]
      simp only [resegAux, if_neg hcond]
      have hcw : cw.isEmpty = false := by
        simpa [List.isEmpty_iff] using hne
      rw [hcw]
      simp only [Bool.false_eq_true, if_false]
      have huni' : ∀ u ∈ cw ++ [w], u.speaker = spk := by
        intro u hu
        rcases List.mem_append.mp hu with h1 | h2
        · exact huni u h1
        · simp only [List.mem_singleton] at h2
          rw [h2]; exact hspk
      rw [ih spk (cw ++ [w]) cs segs (by simp) huni']
      simp only [takeRun, if_pos hspk]
      simp
    · have hcond : (w.speaker ≠ spk ∧ ¬cw.isEmpty) := by
        constructor
        · exact hspk
        · simpa [List.isEmpty_iff] using hne
      simp only [resegAux, if_pos hcond]
      rw [ih w.speaker [w] w.start (segs ++ [mkSeg spk cw cs]) (by simp)
        (by intro u hu; simp only [List.mem_singleton] at hu; rw [hu])]
      simp only [takeRun, if_neg hspk]
      rw [runs]
      simp [segOfRun, headSpeaker, headStart]

/-- Master characterisation of the Resegmenter: it emits exactly the
segments obtained from the maximal same-speaker runs. -/
theorem resegment_eq (ws : List Word) :
    resegment ws = (runs ws).map segOfRun := by
  cases ws with
  | nil => simp [resegment, resegAux, runs]
  | cons w rest =>
    unfold resegment
    have hcond : ¬(w.speaker ≠ none ∧ ¬(List.isEmpty ([] : List Word))) := by
      simp
    simp only [resegAux, if_neg hcond, List.isEmpty_nil, if_pos, List.nil_append]
    rw [resegAux_run rest w.speaker [w] w.start []
      (by simp) (by intro u hu; simp only [List.mem_singleton] at hu; rw [hu])]
    rw [runs]
    simp [segOfRun, headSpeaker, headStart]

theorem runs_join : ∀ ws : List Word, (runs ws).join = ws := by
  intro ws
  induction ws using runs.induct with
  | case1 => simp [runs]
  | case2 w ws ih =>
    rw [runs]
    simp only [List.join_cons, ih, List.cons_append]
    rw [takeRun_append]

theorem runs_ne_nil : ∀ ws : List Word, ∀ r ∈ runs ws, r ≠ [] := by
  intro ws
  induction ws using runs.induct with
  | case1 => simp [runs]
  | case2 w ws ih =>
    rw [runs]
    intro r hr
    rcases List.mem_cons.mp hr with h1 | h2
    · rw [h1]; simp
    · exact ih r h2

theorem runs_uniform : ∀ ws : List Word, ∀ r ∈ runs ws, ∀ w ∈ r,
    w.speaker = headSpeaker r := by
  intro ws
  induction ws using runs.induct with
  | case1 => simp [runs]
  | case2 w ws ih =>
    rw [runs]
    intro r hr u hu
    rcases List.mem_cons.mp hr with h1 | h2
    · subst h1
      rcases List.mem_cons.mp hu with h3 | h4
      · rw [h3]; rfl
      · simpa [headSpeaker] using takeRun_uniform w.speaker ws u h4
    · exact ih r h2 u hu

theorem runs_mem_mem : ∀ ws : List Word, ∀ r ∈ runs ws, ∀ w ∈ r, w ∈ ws := by
  intro ws r hr w hw
  rw [← runs_join ws]
  exact List.mem_join.mpr ⟨r, hr, hw⟩

theorem runs_chain_ne : ∀ ws : List Word,
    (runs ws).Chain' (fun r s => headSpeaker r ≠ headSpeaker s) := by
  intro ws
  induction ws using runs.induct with
  | case1 => simp [runs]
  | case2 w ws ih =>
    rw [runs]
    rw [List.chain'_cons']
    refine ⟨?_, ih⟩
    intro b hb
    cases hsnd : (takeRun w.speaker ws).2 with
    | nil => rw [hsnd] at hb; simp [runs] at hb
    | cons v vs =>
      rw [hsnd] at hb
      rw [runs] at hb
      simp only [List.head?_cons, Option.mem_def, Option.some.injEq] at hb
      have hv : v.speaker ≠ w.speaker := takeRun_snd_head w.speaker ws v vs hsnd
      rw [← hb]
      simp only [headSpeaker]
      intro hcontra
      exact hv hcontra.symm

theorem runs_pairwise_start (ws : List Word)
    (h : ws.Pairwise (fun a b => a.start ≤ b.start)) :
    (runs ws).Pairwise (fun r s => headStart r ≤ headStart s) := by
  induction ws using runs.induct with
  | case1 => simp [runs]
  | case2 w ws ih =>
    rw [runs]
    have hsuffix : (takeRun w.speaker ws).2.Sublist ws := by
      conv_rhs => rw [← takeRun_append w.speaker ws]
      exact List.sublist_append_right _ _
    have hpw2 : (takeRun w.speaker ws).2.Pairwise (fun a b => a.start ≤ b.start) :=
      (List.pairwise_cons.mp h).2.sublist hsuffix
    refine List.pairwise_cons.mpr ⟨?_, ih hpw2⟩
    intro r hr
    have hrne : r ≠ [] := runs_ne_nil _ r hr
    cases hre : r with
    | nil => exact absurd hre hrne
    | cons v vs =>
      simp only [headSpeaker, headStart]
      have hv : v ∈ ws := by
        have : v ∈ (takeRun w.speaker ws).2 := runs_mem_mem _ r hr v (by rw [hre]; simp)
        exact hsuffix.mem this
      exact (List.pairwise_cons.mp h).1 v hv

theorem noWS_append (a b : List Char) : noWS (a ++ b) = noWS a ++ noWS b := by
  simp [noWS, List.filter_append]

theorem noWS_joinSpace : ∀ l : List (List Char),
    noWS (joinSpace l) = (l.map noWS).join := by
  intro l
  induction l with
  | nil => simp [joinSpace, noWS]
  | cons s rest ih =>
    cases rest with
    | nil => simp [joinSpace, noWS]
    | cons t more =>
      show noWS (s ++ ' ' :: joinSpace (t :: more)) = _
      rw [noWS_append]
      have : noWS (' ' :: joinSpace (t :: more)) = noWS (joinSpace (t :: more)) := by
        simp [noWS, List.filter_cons, isSpaceChar]
      rw [this, ih]
      simp

theorem noWS_dropWhile (s : List Char) :
    noWS (s.dropWhile isSpaceChar) = noWS s := by
  induction s with
  | nil => rfl
  | cons c cs ih =>
    by_cases h : isSpaceChar c
    · rw [List.dropWhile_cons_of_pos h, ih]
      simp [noWS, List.filter_cons, h]
    · rw [List.dropWhile_cons_of_neg h]

theorem noWS_reverse (s : List Char) : noWS s.reverse = (noWS s).reverse := by
  simp [noWS, List.filter_reverse]

theorem noWS_pyStrip (s : List Char) : noWS (pyStrip s) = noWS s := by
  unfold pyStrip
  rw [noWS_reverse, noWS_dropWhile, noWS_reverse, List.reverse_reverse,
    noWS_dropWhile]

theorem noWS_join : ∀ L : List (List Char), noWS L.join = (L.map noWS).join := by
  intro L
  induction L with
  | nil => rfl
  | cons l ls ih => simp [List.join_cons, noWS_append, ih]

theorem join_of_runs_texts (L : List (List Word)) :
    ((L.map (fun r => (r.map (fun w => noWS w.word)).join)).join)
      = (L.join.map (fun w => noWS w.word)).join := by
  induction L with
  | nil => rfl
  | cons l ls ih => simp [List.join_cons, ih]

/-- Text concatenation invariant: re-segmentation preserves the transcript
text up to whitespace. -/
theorem resegment_text_concat (ws : List Word) :
    noWS ((resegment ws).map Seg.text).join = noWS ((ws.map Word.word).join) := by
  rw [resegment_eq, noWS_join, noWS_join, List.map_map, List.map_map]
  have h1 : (runs ws).map ((noWS ∘ Seg.text) ∘ segOfRun)
      = (runs ws).map (fun r => (r.map (fun w => noWS w.word)).join) := by
    refine List.map_congr_left ?_
    intro r _
    show noWS (runText r) = _
    unfold runText
    rw [noWS_joinSpace, List.map_map]
    refine congrArg List.join (List.map_congr_left ?_)
    intro w _
    exact noWS_pyStrip w.word
  rw [h1, join_of_runs_texts, runs_join, List.map_map]
  simp only [Function.comp_def]

/-- Claim C1: on a chronologically ordered word stream the Resegmenter
emits exactly one segment per maximal same-speaker run (text = stripped
word texts joined by single spaces, start = first word's start, end = last
word's end, speaker = the run's label), the segments are chronologically
ordered, text is preserved up to whitespace, and no words yield no
segments. -/
theorem C1_resegmenter_correct (ws : List Word)
    (hchron : ws.Pairwise (fun a b => a.start ≤ b.start)) :
    resegment ws = (runs ws).map segOfRun
    ∧ (resegment ws).length = (runs ws).length
    ∧ (runs ws).join = ws
    ∧ (∀ r ∈ runs ws, r ≠ [] ∧ ∀ w ∈ r, w.speaker = headSpeaker r)
    ∧ (runs ws).Chain' (fun r s => headSpeaker r ≠ headSpeaker s)
    ∧ (resegment ws).Pairwise (fun s t => s.start ≤ t.start)
    ∧ noWS ((resegment ws).map Seg.text).join = noWS ((ws.map Word.word).join)
    ∧ (ws = [] → resegment ws = []) := by
  refine ⟨resegment_eq ws, ?_, runs_join ws, ?_, runs_chain_ne ws, ?_, ?_, ?_⟩
  · rw [resegment_eq]; simp
  · intro r hr
    exact ⟨runs_ne_nil ws r hr, runs_uniform ws r hr⟩
  · rw [resegment_eq]
    exact (runs_pairwise_start ws hchron).map segOfRun (fun r s h => h)
  · exact resegment_text_concat ws
  · intro h; rw [h]; rfl

/-- Scenario words from the spec: "hi"/"there" labelled S0, "bob"
labelled S1. -/
def exampleWords : List Word :=
  [⟨['h','i'], 0, 3, some ['S','0']⟩,
   ⟨['t','h','e','r','e'], 3, 6, some ['S','0']⟩,
   ⟨['b','o','b'], 10, 13, some ['S','1']⟩]

theorem C1_resegmenter_correct_witness :
    (exampleWords.Pairwise (fun a b => a.start ≤ b.start))
    ∧ (resegment exampleWords).length = (runs exampleWords).length
    ∧ resegment exampleWords =
      [⟨['h','i',' ','t','h','e','r','e'], 0, 6, some ['S','0']⟩,
       ⟨['b','o','b'], 10, 13, some ['S','1']⟩] := by
  refine ⟨by decide, (C1_resegmenter_correct exampleWords (by decide)).2.1, by decide⟩

/-- Speaker turn reported by the external diarization pipeline: a time
interval with one speaker label (`turn.start`, `turn.end`, `spk` in
`transcribe_gui.py` lines 1293–1295). -/
structure Turn where
  start : ℚ
  stop : ℚ
  spk : List Char
deriving DecidableEq, Repr

/-- Word-to-turn resolution of `transcribe_gui.py` lines 1331–1337: scan
the turns in order and take the first whose closed interval contains the
midpoint; `none` when no turn contains it. -/
def resolveSpeaker (mid : ℚ) : List Turn → Option (List Char)
  | [] => none
  | t :: rest =>
    if t.start ≤ mid ∧ mid ≤ t.stop then some t.spk else resolveSpeaker mid rest

/-- Label placed on unmatched words by
`scripts/dev/test_pyannote.py` (`assign_speakers_to_words`). -/
def unknownLabel : List Char := ['U','N','K','N','O','W','N']

/-- Inner scan of `assign_speakers_to_words` in
`scripts/dev/test_pyannote.py` lines 182–190: the word's speaker starts as
`'UNKNOWN'` and the first containing turn overwrites it and breaks. -/
def scanTurns (center : ℚ) (cur : List Char) : List Turn → List Char
  | [] => cur
  | t :: rest =>
    if t.start ≤ center ∧ center ≤ t.stop then t.spk else scanTurns center cur rest

/-- Model of `assign_speakers_to_words(words, speaker_segments)` of
`scripts/dev/test_pyannote.py`. -/
def assignSpeakersToWords (words : List Word) (turns : List Turn) : List Word :=
  words.map (fun w =>
    { w with speaker := some (scanTurns ((w.start + w.stop) / 2) unknownLabel turns) })

theorem scanTurns_eq_resolve (center : ℚ) (cur : List Char) :
    ∀ turns : List Turn,
      scanTurns center cur turns = (resolveSpeaker center turns).getD cur := by
  intro turns
  induction turns with
  | nil => rfl
  | cons t rest ih =>
    by_cases h : t.start ≤ center ∧ center ≤ t.stop
    · simp [scanTurns, resolveSpeaker, if_pos h]
    · simp only [scanTurns, resolveSpeaker, if_neg h]
      exact ih

theorem resolveSpeaker_none (mid : ℚ) :
    ∀ turns : List Turn, (∀ t ∈ turns, ¬(t.start ≤ mid ∧ mid ≤ t.stop)) →
      resolveSpeaker mid turns = none := by
  intro turns h
  induction turns with
  | nil => rfl
  | cons t rest ih =>
    have ht := h t (by simp)
    simp only [resolveSpeaker, if_neg ht]
    exact ih (fun u hu => h u (List.mem_cons_of_mem t hu))

theorem resolveSpeaker_first (mid : ℚ) :
    ∀ (pre : List Turn) (t : Turn) (post : List Turn),
      (∀ u ∈ pre, ¬(u.start ≤ mid ∧ mid ≤ u.stop)) →
      t.start ≤ mid → mid ≤ t.stop →
      resolveSpeaker mid (pre ++ t :: post) = some t.spk := by
  intro pre
  induction pre with
  | nil =>
    intro t post _ h1 h2
    simp [resolveSpeaker, if_pos (And.intro h1 h2)]
  | cons u pre ih =>
    intro t post hpre h1 h2
    have hu := hpre u (by simp)
    simp only [List.cons_append, resolveSpeaker, if_neg hu]
    exact ih t post (fun v hv => hpre v (List.mem_cons_of_mem u hv)) h1 h2

/-- Claim C3: turn-interval assignment takes the first turn (in original
order) whose closed interval contains the word's midpoint; with no
containing turn the speaker stays unset (`None` in `transcribe_gui.py`,
`'UNKNOWN'` in `test_pyannote.py`); with overlapping turns the first one
in iteration order wins. -/
theorem C3_turn_containment (turns : List Turn) (mid : ℚ) (words : List Word) :
    ((∀ t ∈ turns, ¬(t.start ≤ mid ∧ mid ≤ t.stop)) →
      resolveSpeaker mid turns = none)
    ∧ (∀ pre t post, turns = pre ++ t :: post →
        (∀ u ∈ pre, ¬(u.start ≤ mid ∧ mid ≤ u.stop)) →
        t.start ≤ mid → mid ≤ t.stop →
        resolveSpeaker mid turns = some t.spk)
    ∧ assignSpeakersToWords words turns = words.map (fun w =>
        { w with speaker := some ((resolveSpeaker ((w.start + w.stop) / 2) turns).getD unknownLabel) }) := by
  refine ⟨resolveSpeaker_none mid turns, ?_, ?_⟩
  · intro pre t post hsplit hpre h1 h2
    rw [hsplit]
    exact resolveSpeaker_first mid pre t post hpre h1 h2
  · unfold assignSpeakersToWords
    refine List.map_congr_left ?_
    intro w _
    rw [scanTurns_eq_resolve]

/-- Witness for C3: two overlapping turns A=[0,10], B=[5,15]; a word with
midpoint 7 lies in both and takes the first (A); a word with midpoint 20
lies in none and stays UNKNOWN. -/
theorem C3_turn_containment_witness :
    resolveSpeaker 7 [⟨0, 10, ['A']⟩, ⟨5, 15, ['B']⟩] = some ['A']
    ∧ resolveSpeaker 20 [⟨0, 10, ['A']⟩, ⟨5, 15, ['B']⟩] = none
    ∧ assignSpeakersToWords [⟨['x'], 19, 21, none⟩] [⟨0, 10, ['A']⟩, ⟨5, 15, ['B']⟩]
      = [⟨['x'], 19, 21, some unknownLabel⟩] := by
  refine ⟨?_, ?_, ?_⟩
  · exact (C3_turn_containment [⟨0, 10, ['A']⟩, ⟨5, 15, ['B']⟩] 7 []).2.1
      [] ⟨0, 10, ['A']⟩ [⟨5, 15, ['B']⟩] rfl (by decide) (by decide) (by decide)
  · exact (C3_turn_containment [⟨0, 10, ['A']⟩, ⟨5, 15, ['B']⟩] 20 []).1 (by decide)
  · have h := (C3_turn_containment [⟨0, 10, ['A']⟩, ⟨5, 15, ['B']⟩] 20
      [⟨['x'], 19, 21, none⟩]).2.2
    rw [h]
    norm_num [resolveSpeaker]

/-- Transcription segment as produced by the transcription model: `text`,
`start`, `end` and the word-level timestamps `words` (empty when word
timestamps are unavailable, i.e. the Python
`not hasattr(segment, 'words') or not segment.words` branch). -/
structure TransSeg where
  text : List Char
  start : ℚ
  stop : ℚ
  words : List Word
deriving DecidableEq, Repr

/-- Resolution of one word's label by first-match turn containment, as the
inner loop of `transcribe_gui.py` lines 1329–1337 computes `word_speaker`. -/
def resolveWord (turns : List Turn) (w : Word) : Word :=
  { w with speaker := resolveSpeaker ((w.start + w.stop) / 2) turns }

/-- Inner word loop of the pyannote re-segmentation path of
`transcribe_gui.py` lines 1325–1360: identical in shape to `resegAux` but
the compared label is resolved inline from the speaker turns. -/
def pyResegAux (turns : List Turn) (curSpeaker : Option (List Char))
    (curWords : List Word) (curStart : ℚ) (segs : List Seg) : List Word → List Seg
  | [] =>
    if curWords.isEmpty then segs else segs ++ [mkSeg curSpeaker curWords curStart]
  | w :: rest =>
    if resolveSpeaker ((w.start + w.stop) / 2) turns ≠ curSpeaker ∧ ¬curWords.isEmpty then
      pyResegAux turns (resolveSpeaker ((w.start + w.stop) / 2) turns) [w] w.start
        (segs ++ [mkSeg curSpeaker curWords curStart]) rest
    else
      pyResegAux turns
        (if curWords.isEmpty then resolveSpeaker ((w.start + w.stop) / 2) turns else curSpeaker)
        (curWords ++ [w]) curStart segs rest

/-- Per-transcription-segment body of the pyannote path
(`transcribe_gui.py` lines 1313–1360): segments without word timestamps
are labelled whole by their midpoint; segments with words are re-split on
resolved speaker changes, appending to the shared `new_segments`
accumulator. -/
def pyResegSegment (turns : List Turn) (segs : List Seg) (s : TransSeg) : List Seg :=
  match s.words with
  | [] =>
    segs ++ [⟨s.text, s.start, s.stop, resolveSpeaker ((s.start + s.stop) / 2) turns⟩]
  | w :: ws => pyResegAux turns none [] w.start segs (w :: ws)

/-- Full pyannote re-segmentation of `transcribe_gui.py` lines 1311–1363:
one `new_segments` list accumulated across all transcription segments. -/
def pyReseg (turns : List Turn) (segsList : List TransSeg) : List Seg :=
  segsList.foldl (pyResegSegment turns) []

/-- Modelled from the spec (for the refinement comparison of claim C2):
"first resolves labels via §4.2 then applies the same merge rule" over the
whole file's word sequence, so that equal-speaker runs merge across
transcription-segment boundaries. -/
def specResolveThenMergeWholeFile (turns : List Turn) (segsList : List TransSeg) :
    List Seg :=
  resegment (((segsList.map TransSeg.words).join).map (resolveWord turns))

theorem isEmpty_map {α β : Type} (f : α → β) (l : List α) :
    (l.map f).isEmpty = l.isEmpty := by
  cases l <;> rfl

theorem resolveWord_speaker (turns : List Turn) (w : Word) :
    (resolveWord turns w).speaker = resolveSpeaker ((w.start + w.stop) / 2) turns := rfl

theorem resolveWord_start (turns : List Turn) (w : Word) :
    (resolveWord turns w).start = w.start := rfl

theorem runText_map_resolve (turns : List Turn) (ws : List Word) :
    runText (ws.map (resolveWord turns)) = runText ws := by
  unfold runText
  rw [List.map_map]
  rfl

theorem lastEnd_map_resolve (turns : List Turn) :
    ∀ ws : List Word, lastEnd (ws.map (resolveWord turns)) = lastEnd ws := by
  intro ws
  induction ws with
  | nil => rfl
  | cons w ws ih =>
    cases ws with
    | nil => rfl
    | cons v vs => simpa [lastEnd] using ih

theorem mkSeg_map_resolve (turns : List Turn) (c : Option (List Char))
    (cw : List Word) (cs : ℚ) :
    mkSeg c (cw.map (resolveWord turns)) cs = mkSeg c cw cs := by
  unfold mkSeg
  rw [runText_map_resolve, lastEnd_map_resolve]

/-- Accumulator lemma: `resegAux` only ever appends to the segment list. -/
theorem resegAux_append :
    ∀ (rest : List Word) (c : Option (List Char)) (cw : List Word) (cs : ℚ)
      (segs : List Seg),
    resegAux c cw cs segs rest = segs ++ resegAux c cw cs [] rest := by
  intro rest
  induction rest with
  | nil =>
    intro c cw cs segs
    show (if cw.isEmpty then segs else segs ++ [mkSeg c cw cs])
      = segs ++ (if cw.isEmpty then [] else [] ++ [mkSeg c cw cs])
    by_cases h : cw.isEmpty
    · rw [if_pos h, if_pos h, List.append_nil]
    · rw [if_neg h, if_neg h, List.nil_append]
  | cons w rest ih =>
    intro c cw cs segs
    show resegAux c cw cs segs (w :: rest) = segs ++ resegAux c cw cs [] (w :: rest)
    by_cases h : (w.speaker ≠ c ∧ ¬cw.isEmpty)
    · simp only [resegAux, if_pos h]
      rw [ih _ _ _ (segs ++ [mkSeg c cw cs]), ih _ _ _ ([] ++ [mkSeg c cw cs])]
      simp
    · simp only [resegAux, if_neg h]
      exact ih _ _ _ _

/-- The pyannote inner loop is the Resegmenter run on the words with their
labels resolved from the turns. -/
theorem pyResegAux_eq_resegAux (turns : List Turn) :
    ∀ (rest : List Word) (c : Option (List Char)) (cw : List Word) (cs : ℚ)
      (segs : List Seg),
    pyResegAux turns c cw cs segs rest
      = resegAux c (cw.map (resolveWord turns)) cs segs (rest.map (resolveWord turns)) := by
  intro rest
  induction rest with
  | nil =>
    intro c cw cs segs
    show (if cw.isEmpty then segs else segs ++ [mkSeg c cw cs])
      = (if (cw.map (resolveWord turns)).isEmpty then segs
         else segs ++ [mkSeg c (cw.map (resolveWord turns)) cs])
    rw [isEmpty_map]
    by_cases h : cw.isEmpty
    · rw [if_pos h, if_pos h]
    · rw [if_neg h, if_neg h, mkSeg_map_resolve]
  | cons w rest ih =>
    intro c cw cs segs
    simp only [List.map_cons]
    simp only [pyResegAux, resegAux, isEmpty_map, resolveWord_speaker, resolveWord_start]
    by_cases h : (resolveSpeaker ((w.start + w.stop) / 2) turns ≠ c ∧ ¬cw.isEmpty)
    · rw [if_pos h, if_pos h, mkSeg_map_resolve, ih]
      rfl
    · rw [if_neg h, if_neg h, ih]
      simp only [List.map_append, List.map_cons, List.map_nil]

/-- Per-segment output of the pyannote path: unlabelled-whole for segments
without words, resolve-then-merge for segments with words. -/
def pySegOut (turns : List Turn) (s : TransSeg) : List Seg :=
  match s.words with
  | [] => [⟨s.text, s.start, s.stop, resolveSpeaker ((s.start + s.stop) / 2) turns⟩]
  | w :: ws => resegment ((w :: ws).map (resolveWord turns))

theorem pyResegSegment_eq (turns : List Turn) (segs : List Seg) (s : TransSeg) :
    pyResegSegment turns segs s = segs ++ pySegOut turns s := by
  unfold pyResegSegment pySegOut
  cases hw : s.words with
  | nil => rfl
  | cons w ws =>
    show pyResegAux turns none [] w.start segs (w :: ws)
      = segs ++ resegment ((w :: ws).map (resolveWord turns))
    rw [pyResegAux_eq_resegAux, resegAux_append]
    rfl

theorem pyReseg_foldl (turns : List Turn) :
    ∀ (l : List TransSeg) (segs : List Seg),
      l.foldl (pyResegSegment turns) segs = segs ++ (l.map (pySegOut turns)).join := by
  intro l
  induction l with
  | nil => intro segs; simp
  | cons s l ih =>
    intro segs
    show l.foldl (pyResegSegment turns) (pyResegSegment turns segs s) = _
    rw [pyResegSegment_eq, ih]
    simp

/-- Amended claim C2: the turn-interval re-segmentation variant equals
resolving each word's label by first-match containment (section 4.2) and
applying the word-label merge rule independently within each transcription
segment, the per-segment outputs concatenated in order — equal-speaker
runs merge within a segment but never across the boundaries of the
original transcription segments (segments without word timestamps are
labelled whole by their midpoint). -/
theorem C2_per_segment_equivalence (turns : List Turn) (segsList : List TransSeg) :
    pyReseg turns segsList = (segsList.map (pySegOut turns)).join := by
  unfold pyReseg
  rw [pyReseg_foldl]
  rfl

/-- Two one-word transcription segments whose words both resolve to
speaker A under the single turn [0,30]. -/
def exSegPair : List TransSeg :=
  [⟨['h','i'], 0, 2, [⟨['h','i'], 0, 2, none⟩]⟩,
   ⟨['y','o'], 4, 6, [⟨['y','o'], 4, 6, none⟩]⟩]

/-- Counterexample to claim C2 as stated: the code emits one segment per
transcription segment (2 here), while resolving labels and merging over
the whole file's word sequence would merge the equal-speaker run spanning
the segment boundary into one segment. -/
theorem C2_counterexample :
    (pyReseg [⟨0, 30, ['A']⟩] exSegPair).length = 2
    ∧ (specResolveThenMergeWholeFile [⟨0, 30, ['A']⟩] exSegPair).length = 1
    ∧ pyReseg [⟨0, 30, ['A']⟩] exSegPair
      ≠ specResolveThenMergeWholeFile [⟨0, 30, ['A']⟩] exSegPair := by
  have h1 : resolveSpeaker ((0 + 2 : ℚ) / 2) [⟨0, 30, ['A']⟩] = some ['A'] := by
    norm_num [resolveSpeaker]
  have h2 : resolveSpeaker ((4 + 6 : ℚ) / 2) [⟨0, 30, ['A']⟩] = some ['A'] := by
    norm_num [resolveSpeaker]
  have hcode : pyReseg [⟨0, 30, ['A']⟩] exSegPair
      = [⟨['h','i'], 0, 2, some ['A']⟩, ⟨['y','o'], 4, 6, some ['A']⟩] := by
    show exSegPair.foldl (pyResegSegment [⟨0, 30, ['A']⟩]) [] = _
    simp only [exSegPair, List.foldl_cons, List.foldl_nil, pyResegSegment,
      pyResegAux, h1, h2]
    decide
  have harg : (((exSegPair.map TransSeg.words).join).map (resolveWord [⟨0, 30, ['A']⟩]))
      = [⟨['h','i'], 0, 2, some ['A']⟩, ⟨['y','o'], 4, 6, some ['A']⟩] := by
    simp only [exSegPair, List.map_cons, List.map_nil, List.join_cons, List.join_nil,
      List.append_nil, List.cons_append, List.nil_append, resolveWord]
    norm_num [resolveSpeaker]
  have hspec : specResolveThenMergeWholeFile [⟨0, 30, ['A']⟩] exSegPair
      = [⟨['h','i',' ','y','o'], 0, 6, some ['A']⟩] := by
    unfold specResolveThenMergeWholeFile
    rw [harg]
    decide
  rw [hcode, hspec]
  exact ⟨rfl, rfl, by decide⟩

/-- Sliding embedding window (`seg_info` dict of `transcribe_gui.py` lines
1117–1122 after the clustering stage added its `'speaker'` entry):
indices of the words whose midpoint falls in the window, window bounds,
and the window's cluster label. -/
structure Win where
  word_indices : List ℕ
  start : ℚ
  stop : ℚ
  speaker : List Char
deriving DecidableEq, Repr

/-- Votes gathered for one word: labels of the valid windows whose
`word_indices` contain it, in window order (`transcribe_gui.py` lines
1191–1194). -/
def votesFor (validSegs : List Win) (wordIdx : ℕ) : List (List Char) :=
  (validSegs.filter (fun s => wordIdx ∈ s.word_indices)).map Win.speaker

/-- Distinct labels of a vote list in order of first occurrence, the
iteration order of `collections.Counter` built from the votes. -/
def keysIn : List (List Char) → List (List Char)
  | [] => []
  | v :: vs => v :: (keysIn vs).filter (fun u => u ≠ v)

/-- Model of `Counter(speaker_votes).most_common(1)[0][0]`: the first
label (in first-occurrence order) whose vote count is maximal.
`most_common` sorts stably by descending count, so count ties keep the
first-encountered label. -/
def bestLabel (votes : List (List Char)) : Option (List Char) :=
  (keysIn votes).find? (fun k =>
    (keysIn votes).all (fun v => decide (votes.count v ≤ votes.count k)))

/-- Temporal distance from a window's center to a word midpoint, the
`key` of the Python `min` call at lines 1206–1207. -/
def winDist (t : ℚ) (s : Win) : ℚ := |(s.start + s.stop) / 2 - t|

/-- Model of `min(valid_segments, key=...)`: scan keeping the current
minimum, replacing it only on strictly smaller distance — Python's `min`
returns the first minimal element. -/
def nearestWin (t : ℚ) (s0 : Win) (rest : List Win) : Win :=
  rest.foldl (fun best s => if winDist t s < winDist t best then s else best) s0

/-- Default label used when no clustering signal exists
(`transcribe_gui.py` lines 1163–1164 and 1203). -/
def defaultLabel : List Char := ['S','P','E','A','K','E','R','_','0','0']

/-- Speaker assignment for one word (`transcribe_gui.py` lines
1189–1208): majority vote over containing windows, else nearest valid
window by center, else the default label when there are no valid
windows. -/
def assignWord (validSegs : List Win) (wordIdx : ℕ) (w : Word) : Word :=
  match bestLabel (votesFor validSegs wordIdx) with
  | some spk => { w with speaker := some spk }
  | none =>
    match validSegs with
    | [] => { w with speaker := some defaultLabel }
    | s0 :: rest =>
      { w with speaker := some (nearestWin ((w.start + w.stop) / 2) s0 rest).speaker }

/-- Voting pass over all words (`for word_idx, word in enumerate(all_words)`). -/
def assignSpeakers (validSegs : List Win) (allWords : List Word) : List Word :=
  allWords.enum.map (fun p => assignWord validSegs p.1 p.2)

/-- Position of the first occurrence of a label in a vote list. -/
def firstIdx (v : List Char) : List (List Char) → ℕ
  | [] => 0
  | u :: us => if u = v then 0 else firstIdx v us + 1

theorem keysIn_mem : ∀ (l : List (List Char)) (a : List Char),
    a ∈ keysIn l ↔ a ∈ l := by
  intro l
  induction l with
  | nil => intro a; simp [keysIn]
  | cons v vs ih =>
    intro a
    constructor
    · intro h
      rcases List.mem_cons.mp h with h1 | h2
      · rw [h1]; simp
      · have := List.mem_of_mem_filter h2
        exact List.mem_cons_of_mem v ((ih a).mp this)
    · intro h
      rcases List.mem_cons.mp h with h1 | h2
      · rw [h1]; simp [keysIn]
      · by_cases hv : a = v
        · rw [hv]; simp [keysIn]
        · refine List.mem_cons_of_mem v ?_
          refine List.mem_filter.mpr ⟨(ih a).mpr h2, ?_⟩
          simpa using hv

theorem keysIn_pairwise : ∀ votes : List (List Char),
    (keysIn votes).Pairwise (fun a b => firstIdx a votes < firstIdx b votes) := by
  intro votes
  induction votes with
  | nil => simp [keysIn]
  | cons v vs ih =>
    show (v :: (keysIn vs).filter (fun u => u ≠ v)).Pairwise _
    refine List.pairwise_cons.mpr ⟨?_, ?_⟩
    · intro b hb
      have hbne : b ≠ v := by
        have := (List.mem_filter.mp hb).2
        simpa using this
      show firstIdx v (v :: vs) < firstIdx b (v :: vs)
      simp only [firstIdx]
      rw [if_neg (Ne.symm hbne)]
      simp
    · have hsub := List.filter_sublist (l := keysIn vs) (p := fun u => u ≠ v)
      have hpw := ih.sublist hsub
      refine hpw.imp_of_mem ?_
      intro a b ha hb hab
      have hane : a ≠ v := by simpa using (List.mem_filter.mp ha).2
      have hbne : b ≠ v := by simpa using (List.mem_filter.mp hb).2
      show firstIdx a (v :: vs) < firstIdx b (v :: vs)
      simp only [firstIdx]
      rw [if_neg (Ne.symm hane), if_neg (Ne.symm hbne)]
      exact Nat.succ_lt_succ hab

theorem keysIn_ne_nil : ∀ votes : List (List Char), votes ≠ [] → keysIn votes ≠ [] := by
  intro votes h
  cases votes with
  | nil => exact absurd rfl h
  | cons v vs => simp [keysIn]

theorem exists_max_count (votes : List (List Char)) :
    ∀ keys : List (List Char), keys ≠ [] →
      ∃ k ∈ keys, ∀ v ∈ keys, votes.count v ≤ votes.count k := by
  intro keys
  induction keys with
  | nil => intro h; exact absurd rfl h
  | cons k ks ih =>
    intro _
    by_cases hks : ks = []
    · subst hks
      refine ⟨k, by simp, ?_⟩
      intro v hv
      simp only [List.mem_singleton] at hv
      rw [hv]
    · obtain ⟨m, hm, hmax⟩ := ih hks
      by_cases h : votes.count k ≤ votes.count m
      · refine ⟨m, List.mem_cons_of_mem k hm, ?_⟩
        intro v hv
        rcases List.mem_cons.mp hv with h1 | h2
        · rw [h1]; exact h
        · exact hmax v h2
      · refine ⟨k, by simp, ?_⟩
        intro v hv
        rcases List.mem_cons.mp hv with h1 | h2
        · rw [h1]
        · exact le_trans (hmax v h2) (le_of_not_le h)

/-- First-satisfying decomposition for `List.find?`. -/
theorem find?_decomp {α : Type} (p : α → Bool) :
    ∀ (l : List α) (b : α), l.find? p = some b →
      ∃ l1 l2, l = l1 ++ b :: l2 ∧ ∀ a ∈ l1, p a = false := by
  intro l
  induction l with
  | nil => intro b h; simp [List.find?] at h
  | cons x xs ih =>
    intro b h
    by_cases hx : p x
    · rw [List.find?_cons_of_pos _ hx] at h
      obtain rfl : x = b := by simpa using h
      exact ⟨[], xs, rfl, by simp⟩
    · rw [List.find?_cons_of_neg _ hx] at h
      obtain ⟨l1, l2, heq, hall⟩ := ih b h
      refine ⟨x :: l1, l2, by rw [heq]; rfl, ?_⟩
      intro a ha
      rcases List.mem_cons.mp ha with h1 | h2
      · rw [h1]; simpa using hx
      · exact hall a h2

theorem bestLabel_none_iff (votes : List (List Char)) :
    bestLabel votes = none ↔ votes = [] := by
  constructor
  · intro h
    by_contra hne
    have hkeys := keysIn_ne_nil votes hne
    obtain ⟨k, hk, hmax⟩ := exists_max_count votes (keysIn votes) hkeys
    have hsome : (bestLabel votes).isSome := by
      unfold bestLabel
      rw [List.find?_isSome]
      refine ⟨k, hk, ?_⟩
      rw [List.all_eq_true]
      intro v hv
      simpa using hmax v hv
    rw [h] at hsome
    simp at hsome
  · intro h
    rw [h]
    rfl

/-- Majority-vote characterisation: the chosen label occurs in the votes,
has maximal count, and among tied labels is the one first encountered. -/
theorem bestLabel_spec (votes : List (List Char)) (b : List Char)
    (h : bestLabel votes = some b) :
    b ∈ votes ∧ (∀ v ∈ votes, votes.count v ≤ votes.count b)
    ∧ (∀ v ∈ votes, votes.count v = votes.count b → firstIdx b votes ≤ firstIdx v votes) := by
  unfold bestLabel at h
  have hb_mem : b ∈ keysIn votes := List.mem_of_find?_eq_some h
  have hb_pred := List.find?_some h
  rw [List.all_eq_true] at hb_pred
  have hmax : ∀ v ∈ keysIn votes, votes.count v ≤ votes.count b := by
    intro v hv
    simpa using hb_pred v hv
  have hmax' : ∀ v ∈ votes, votes.count v ≤ votes.count b := by
    intro v hv
    exact hmax v ((keysIn_mem votes v).mpr hv)
  refine ⟨(keysIn_mem votes b).mp hb_mem, hmax', ?_⟩
  intro v hv htie
  obtain ⟨l1, l2, heq, hfail⟩ := find?_decomp _ (keysIn votes) b h
  have hv_keys : v ∈ keysIn votes := (keysIn_mem votes v).mpr hv
  have hv_not_l1 : v ∉ l1 := by
    intro hvl1
    have := hfail v hvl1
    rw [Bool.eq_false_iff] at this
    apply this
    rw [List.all_eq_true]
    intro u hu
    have hcu : votes.count u ≤ votes.count b := hmax u hu
    rw [← htie] at hcu
    simpa using hcu
  rw [heq] at hv_keys
  rcases List.mem_append.mp hv_keys with h1 | h2
  · exact absurd h1 hv_not_l1
  rcases List.mem_cons.mp h2 with h3 | h4
  · rw [h3]
  · have hpw := keysIn_pairwise votes
    rw [heq] at hpw
    have hpw2 : (b :: l2).Pairwise (fun a c => firstIdx a votes < firstIdx c votes) :=
      hpw.sublist (List.sublist_append_right l1 (b :: l2))
    exact le_of_lt ((List.pairwise_cons.mp hpw2).1 v h4)

/-- Characterisation of the nearest-window fallback: the result is a
member of the window list, has minimal center distance, and every window
strictly before it in list order is strictly farther (distance ties keep
the earlier window). -/
theorem nearestWin_spec (t : ℚ) :
    ∀ (rest : List Win) (s0 : Win),
      nearestWin t s0 rest ∈ s0 :: rest
      ∧ (∀ s ∈ s0 :: rest, winDist t (nearestWin t s0 rest) ≤ winDist t s)
      ∧ ∃ l1 l2, s0 :: rest = l1 ++ nearestWin t s0 rest :: l2
          ∧ ∀ s ∈ l1, winDist t (nearestWin t s0 rest) < winDist t s := by
  intro rest
  induction rest with
  | nil =>
    intro s0
    refine ⟨by simp [nearestWin], ?_, [], [], rfl, by simp⟩
    intro s hs
    simp only [nearestWin, List.foldl_nil]
    simp only [List.mem_singleton] at hs
    rw [hs]
  | cons s rest ih =>
    intro s0
    have hstep : nearestWin t s0 (s :: rest)
        = nearestWin t (if winDist t s < winDist t s0 then s else s0) rest := rfl
    by_cases h : winDist t s < winDist t s0
    · rw [if_pos h] at hstep
      obtain ⟨hmem, hmin, l1, l2, hdec, hstrict⟩ := ih s
      rw [hstep]
      refine ⟨List.mem_cons_of_mem s0 hmem, ?_, s0 :: l1, l2, ?_, ?_⟩
      · intro u hu
        rcases List.mem_cons.mp hu with h1 | h2
        · rw [h1]
          exact le_of_lt (lt_of_le_of_lt (hmin s (by simp)) h)
        · exact hmin u h2
      · rw [List.cons_append, ← hdec]
      · intro u hu
        rcases List.mem_cons.mp hu with h1 | h2
        · rw [h1]
          exact lt_of_le_of_lt (hmin s (by simp)) h
        · exact hstrict u h2
    · have hle : winDist t s0 ≤ winDist t s := le_of_not_lt h
      rw [if_neg h] at hstep
      obtain ⟨hmem, hmin, l1, l2, hdec, hstrict⟩ := ih s0
      rw [hstep]
      have hmem' : nearestWin t s0 rest ∈ s0 :: s :: rest := by
        rcases List.mem_cons.mp hmem with h1 | h2
        · rw [h1]; simp
        · exact List.mem_cons_of_mem s0 (List.mem_cons_of_mem s h2)
      have hmin' : ∀ u ∈ s0 :: s :: rest,
          winDist t (nearestWin t s0 rest) ≤ winDist t u := by
        intro u hu
        rcases List.mem_cons.mp hu with h1 | h2
        · rw [h1]; exact hmin s0 (by simp)
        rcases List.mem_cons.mp h2 with h3 | h4
        · rw [h3]; exact le_trans (hmin s0 (by simp)) hle
        · exact hmin u (List.mem_cons_of_mem s0 h4)
      refine ⟨hmem', hmin', ?_⟩
      cases l1 with
      | nil =>
        have hr : s0 = nearestWin t s0 rest := by
          have := hdec
          simp only [List.nil_append] at this
          exact (List.cons.inj this).1
        refine ⟨[], s :: rest, ?_, by simp⟩
        rw [List.nil_append, ← hr]
      | cons x l1' =>
        have hx : x = s0 ∧ rest = l1' ++ nearestWin t s0 rest :: l2 := by
          have := hdec
          simp only [List.cons_append] at this
          exact ⟨((List.cons.inj this).1).symm, (List.cons.inj this).2⟩
        refine ⟨s0 :: s :: l1', l2, ?_, ?_⟩
        · simp only [List.cons_append]
          rw [← hx.2]
        · intro u hu
          have hs0strict : winDist t (nearestWin t s0 rest) < winDist t s0 := by
            have := hstrict x (by simp)
            rw [hx.1] at this
            exact this
          rcases List.mem_cons.mp hu with h1 | h2
          · rw [h1]; exact hs0strict
          rcases List.mem_cons.mp h2 with h3 | h4
          · rw [h3]; exact lt_of_lt_of_le hs0strict hle
          · exact hstrict u (List.mem_cons_of_mem x h4)

/-- Claim C4: word-to-speaker assignment after clustering is a
deterministic function (it is a pure function of the valid windows in
order): a word contained in at least one valid window receives the
majority label with vote ties broken toward the label first encountered
in window order; a word contained in no valid window receives the label
of the valid window with nearest center, distance ties broken toward the
earlier window; with no valid windows at all the default label is used. -/
theorem C4_vote_assignment (validSegs : List Win) (wordIdx : ℕ) (w : Word) :
    (∀ b, bestLabel (votesFor validSegs wordIdx) = some b →
      (assignWord validSegs wordIdx w).speaker = some b
      ∧ b ∈ votesFor validSegs wordIdx
      ∧ (∀ v ∈ votesFor validSegs wordIdx,
          (votesFor validSegs wordIdx).count v ≤ (votesFor validSegs wordIdx).count b)
      ∧ (∀ v ∈ votesFor validSegs wordIdx,
          (votesFor validSegs wordIdx).count v = (votesFor validSegs wordIdx).count b →
          firstIdx b (votesFor validSegs wordIdx) ≤ firstIdx v (votesFor validSegs wordIdx)))
    ∧ (bestLabel (votesFor validSegs wordIdx) = none ↔ votesFor validSegs wordIdx = [])
    ∧ (validSegs = [] → votesFor validSegs wordIdx = [] →
        (assignWord validSegs wordIdx w).speaker = some defaultLabel)
    ∧ (∀ s0 rest, validSegs = s0 :: rest → votesFor validSegs wordIdx = [] →
        (assignWord validSegs wordIdx w).speaker
          = some (nearestWin ((w.start + w.stop) / 2) s0 rest).speaker
        ∧ nearestWin ((w.start + w.stop) / 2) s0 rest ∈ validSegs
        ∧ (∀ s ∈ validSegs,
            winDist ((w.start + w.stop) / 2) (nearestWin ((w.start + w.stop) / 2) s0 rest)
              ≤ winDist ((w.start + w.stop) / 2) s)
        ∧ ∃ l1 l2, validSegs = l1 ++ nearestWin ((w.start + w.stop) / 2) s0 rest :: l2
            ∧ ∀ s ∈ l1,
                winDist ((w.start + w.stop) / 2) (nearestWin ((w.start + w.stop) / 2) s0 rest)
                  < winDist ((w.start + w.stop) / 2) s) := by
  refine ⟨?_, bestLabel_none_iff _, ?_, ?_⟩
  · intro b hb
    have hspec := bestLabel_spec _ b hb
    refine ⟨?_, hspec.1, hspec.2.1, hspec.2.2⟩
    unfold assignWord
    rw [hb]
  · intro hnil hvotes
    unfold assignWord
    rw [(bestLabel_none_iff _).mpr hvotes, hnil]
  · intro s0 rest hcons hvotes
    obtain ⟨hmem, hmin, l1, l2, hdec, hstrict⟩ :=
      nearestWin_spec ((w.start + w.stop) / 2) rest s0
    refine ⟨?_, by rw [hcons]; exact hmem, ?_, l1, l2, by rw [hcons, hdec], hstrict⟩
    · unfold assignWord
      rw [(bestLabel_none_iff _).mpr hvotes, hcons]
    · intro s hs
      rw [hcons] at hs
      exact hmin s hs

/-- Witness for C4: two windows both containing word 0 with labels A and
B — a vote tie — and the assignment takes A, the label of the earlier
window. -/
theorem C4_vote_assignment_witness :
    bestLabel (votesFor [⟨[0], 0, 2, ['A']⟩, ⟨[0], 1, 3, ['B']⟩] 0) = some ['A']
    ∧ (assignWord [⟨[0], 0, 2, ['A']⟩, ⟨[0], 1, 3, ['B']⟩] 0
        ⟨['w'], 0, 2, none⟩).speaker = some ['A'] := by
  refine ⟨by decide, ?_⟩
  exact ((C4_vote_assignment [⟨[0], 0, 2, ['A']⟩, ⟨[0], 1, 3, ['B']⟩] 0
    ⟨['w'], 0, 2, none⟩).1 ['A'] (by decide)).1

/-- Decimal digit rendered as a character, as Python's `format` does for
each digit of `f"SPEAKER_{id:02d}"`. -/
def digitChar10 (d : ℕ) : Char := Char.ofNat (48 + d)

/-- Numeric value of a decimal digit character. -/
def digitVal (c : Char) : ℕ := c.toNat - 48

/-- Fuel-driven little-endian decimal digits (kernel-reducible variant of
`Nat.digits 10`). -/
def decDigitsAux : ℕ → ℕ → List ℕ
  | 0, _ => []
  | _ + 1, 0 => []
  | fuel + 1, n => (n % 10) :: decDigitsAux fuel (n / 10)

def decDigits (n : ℕ) : List ℕ := decDigitsAux n n

theorem decDigitsAux_eq : ∀ fuel n : ℕ, n ≤ fuel → decDigitsAux fuel n = Nat.digits 10 n := by
  intro fuel
  induction fuel with
  | zero =>
    intro n hn
    have h0 : n = 0 := Nat.le_zero.mp hn
    rw [h0]
    simp [decDigitsAux]
  | succ fuel ih =>
    intro n hn
    cases hn0 : n with
    | zero => simp [decDigitsAux]
    | succ m =>
      have hstep : decDigitsAux (fuel + 1) (m + 1)
          = ((m + 1) % 10) :: decDigitsAux fuel ((m + 1) / 10) := rfl
      rw [hstep, Nat.digits_def' (by norm_num : (1:ℕ) < 10) (Nat.succ_pos m)]
      congr 1
      apply ih
      have hlt : (m + 1) / 10 < m + 1 := Nat.div_lt_self (Nat.succ_pos m) (by norm_num)
      have hn' : m + 1 ≤ fuel + 1 := hn0 ▸ hn
      exact Nat.le_of_lt_succ (lt_of_lt_of_le hlt hn')

theorem decDigits_eq (n : ℕ) : decDigits n = Nat.digits 10 n :=
  decDigitsAux_eq n n le_rfl

/-- Decimal rendering of a natural number, most significant digit first
(Python `str(n)` for a non-negative int). -/
def decRepr (n : ℕ) : List Char :=
  if n = 0 then ['0'] else (decDigits n).reverse.map digitChar10

/-- Zero padding to width two, Python's `{:02d}` format specifier. -/
def pad2 (l : List Char) : List Char := List.replicate (2 - l.length) '0' ++ l

def labelStem : List Char := ['S','P','E','A','K','E','R','_']

/-- Cluster label string `f"SPEAKER_{i:02d}"` of `transcribe_gui.py`
line 1184. -/
def mkLabel (i : ℕ) : List Char := labelStem ++ pad2 (decRepr i)

theorem mkLabel_zero : mkLabel 0 = defaultLabel := by decide

/-- Inverse padding: drop the pad character exactly when it was added. -/
def stripPad (l : List Char) : List Char :=
  if l.length = 2 ∧ l.head? = some '0' then l.tail else l

def parseDec (l : List Char) : ℕ := Nat.ofDigits 10 ((l.map digitVal).reverse)

def unLabel (l : List Char) : ℕ := parseDec (stripPad (l.drop 8))

theorem digitVal_digitChar10 : ∀ d : ℕ, d < 10 → digitVal (digitChar10 d) = d := by
  intro d hd
  interval_cases d <;> rfl

theorem digitChar10_ne_zero_char : ∀ d : ℕ, d < 10 → d ≠ 0 → digitChar10 d ≠ '0' := by
  intro d hd hne
  interval_cases d
  · exact absurd rfl hne
  all_goals decide

theorem drop_labelStem (x : List Char) : (labelStem ++ x).drop 8 = x := by
  simp [labelStem]

/-- Round trip: the numeric cluster id is recoverable from its label. -/
theorem unLabel_mkLabel (n : ℕ) : unLabel (mkLabel n) = n := by
  unfold unLabel mkLabel
  rw [drop_labelStem]
  by_cases h0 : n = 0
  · subst h0
    decide
  · unfold decRepr
    rw [if_neg h0, decDigits_eq]
    have hne : Nat.digits 10 n ≠ [] := Nat.digits_ne_nil_iff_ne_zero.mpr h0
    have hlt : ∀ d ∈ Nat.digits 10 n, d < 10 := by
      intro d hd
      exact Nat.digits_lt_base (by norm_num) hd
    have hparse : parseDec ((Nat.digits 10 n).reverse.map digitChar10) = n := by
      unfold parseDec
      rw [List.map_map, ← List.map_reverse, List.reverse_reverse]
      have hmap : (Nat.digits 10 n).map (digitVal ∘ digitChar10) = Nat.digits 10 n := by
        conv_rhs => rw [← List.map_id (Nat.digits 10 n)]
        exact List.map_congr_left (fun d hd => digitVal_digitChar10 d (hlt d hd))
      rw [hmap]
      exact Nat.ofDigits_digits 10 n
    have hstrip : stripPad (pad2 ((Nat.digits 10 n).reverse.map digitChar10))
        = (Nat.digits 10 n).reverse.map digitChar10 := by
      unfold pad2 stripPad
      by_cases hlen : ((Nat.digits 10 n).reverse.map digitChar10).length < 2
      · -- one digit: the pad is added and then stripped again
        have hlen1 : ((Nat.digits 10 n).reverse.map digitChar10).length = 1 := by
          have : (Nat.digits 10 n).length ≠ 0 := by
            simpa [List.length_eq_zero] using hne
          have hge : 1 ≤ ((Nat.digits 10 n).reverse.map digitChar10).length := by
            simp only [List.length_map, List.length_reverse]
            omega
          omega
        rw [hlen1]
        have hrep : List.replicate (2 - 1) '0' = ['0'] := rfl
        rw [hrep]
        cases hd : (Nat.digits 10 n).reverse.map digitChar10 with
        | nil => rw [hd] at hlen1; simp at hlen1
        | cons c cs =>
          have hcs : cs = [] := by
            rw [hd] at hlen1
            simpa using hlen1
          subst hcs
          simp
      · -- at least two digits: no pad, and the leading digit is nonzero
        have hlen2 : 2 - ((Nat.digits 10 n).reverse.map digitChar10).length = 0 := by omega
        rw [hlen2]
        simp only [List.replicate_zero, List.nil_append]
        by_cases hcond : (((Nat.digits 10 n).reverse.map digitChar10).length = 2
            ∧ ((Nat.digits 10 n).reverse.map digitChar10).head? = some '0')
        · exfalso
          have hhead := hcond.2
          rw [List.head?_map, List.head?_reverse] at hhead
          have hgl : (Nat.digits 10 n).getLast hne ≠ 0 := Nat.getLast_digit_ne_zero 10 h0
          have hglmem : (Nat.digits 10 n).getLast hne ∈ Nat.digits 10 n :=
            List.getLast_mem hne
          have hgl? : (Nat.digits 10 n).getLast? = some ((Nat.digits 10 n).getLast hne) :=
            List.getLast?_eq_getLast _ hne
          rw [hgl?] at hhead
          have hhead' : digitChar10 ((Nat.digits 10 n).getLast hne) = '0' := by
            simpa using hhead
          exact digitChar10_ne_zero_char _ (hlt _ hglmem) hgl hhead'
        · rw [if_neg hcond]
    rw [hstrip, hparse]

theorem mkLabel_injective : Function.Injective mkLabel := by
  intro a b hab
  have : unLabel (mkLabel a) = unLabel (mkLabel b) := by rw [hab]
  rwa [unLabel_mkLabel, unLabel_mkLabel] at this

/-- Cluster count of `transcribe_gui.py` lines 1168–1169:
`num_speakers = self._num_speakers if self._num_speakers > 0 else 2`
then `num_speakers = min(num_speakers, len(valid_embeddings))`. -/
def numClusters (requested n : ℕ) : ℕ :=
  min (if 0 < requested then requested else 2) n

/-- Label assignment to the valid windows from the clustering ids
(`transcribe_gui.py` lines 1183–1184). -/
def labelWindows (wins : List Win) (ids : List ℕ) : List Win :=
  List.zipWith (fun w i => { w with speaker := mkLabel i }) wins ids

/-- WavLM word-labelling step of `transcribe_gui.py` lines 1161–1208:
with fewer than 2 valid embedding windows every word gets the default
label; otherwise the windows are labelled from the external clustering
result `clusterIds` and the voting pass runs. -/
def wavlmAssignAll (requested : ℕ) (validWins : List Win) (clusterIds : List ℕ)
    (allWords : List Word) : List Word :=
  if validWins.length < 2 then
    allWords.map (fun w => { w with speaker := some defaultLabel })
  else
    assignSpeakers (labelWindows validWins clusterIds) allWords

theorem map_dedup_of_injective {α β : Type} [DecidableEq α] [DecidableEq β]
    (f : α → β) (hf : Function.Injective f) :
    ∀ l : List α, (l.map f).dedup = l.dedup.map f := by
  intro l
  induction l with
  | nil => rfl
  | cons a l ih =>
    by_cases h : a ∈ l
    · rw [List.map_cons, List.dedup_cons_of_mem (List.mem_map_of_mem f h),
        List.dedup_cons_of_mem h, ih]
    · have hfa : f a ∉ l.map f := by
        intro hmem
        obtain ⟨b, hb, hfb⟩ := List.mem_map.mp hmem
        exact h (hf hfb ▸ hb)
      rw [List.map_cons, List.dedup_cons_of_not_mem hfa,
        List.dedup_cons_of_not_mem h, ih, List.map_cons]

theorem labelWindows_speakers :
    ∀ (wins : List Win) (ids : List ℕ), ids.length = wins.length →
      (labelWindows wins ids).map Win.speaker = ids.map mkLabel := by
  intro wins
  induction wins with
  | nil =>
    intro ids hlen
    have : ids = [] := List.length_eq_zero.mp hlen
    rw [this]
    rfl
  | cons w wins ih =>
    intro ids hlen
    cases ids with
    | nil => simp at hlen
    | cons i ids =>
      show Win.speaker { w with speaker := mkLabel i } ::
        (labelWindows wins ids).map Win.speaker = mkLabel i :: ids.map mkLabel
      rw [ih ids (by simpa using hlen)]

/-- Claim C5: the number of distinct labels the WindowEmbeddingDiarizer
produces is a fixed function of the requested speaker count and the number
N of valid windows — under the external clustering contract (one id per
window, exactly `numClusters` distinct ids), the window labels are exactly
`numClusters requested N` distinct strings, where `numClusters` is 2 when
requested = 0 and `min(requested, N)` when requested ≥ 2; with N ≤ 1 every
word receives the same default label `SPEAKER_00`. -/
theorem C5_label_counts (requested : ℕ) (validWins : List Win) (ids : List ℕ)
    (allWords : List Word) (hlen : ids.length = validWins.length) :
    (2 ≤ validWins.length →
      ids.dedup.length = numClusters requested validWins.length →
      (((labelWindows validWins ids).map Win.speaker).dedup.length
          = numClusters requested validWins.length
       ∧ (requested = 0 → numClusters requested validWins.length = 2)
       ∧ (2 ≤ requested →
           numClusters requested validWins.length = min requested validWins.length)))
    ∧ (validWins.length < 2 →
        ∀ w ∈ wavlmAssignAll requested validWins ids allWords,
          w.speaker = some defaultLabel) := by
  constructor
  · intro hN hK
    refine ⟨?_, ?_, ?_⟩
    · rw [labelWindows_speakers validWins ids hlen,
        map_dedup_of_injective mkLabel mkLabel_injective,
        List.length_map]
      exact hK
    · intro h0
      unfold numClusters
      rw [h0]
      simp only [lt_irrefl, if_false]
      exact min_eq_left hN
    · intro h2
      unfold numClusters
      rw [if_pos (lt_of_lt_of_le (by norm_num) h2)]
  · intro hN w hw
    unfold wavlmAssignAll at hw
    rw [if_pos hN] at hw
    obtain ⟨u, _, hu⟩ := List.mem_map.mp hw
    rw [← hu]

/-- Witness for C5: two valid windows, requested speakers 0, cluster ids
[0, 1] — exactly 2 distinct labels. -/
theorem C5_label_counts_witness :
    (([0, 1] : List ℕ).dedup.length = numClusters 0 2)
    ∧ ((labelWindows [⟨[0], 0, 1, []⟩, ⟨[1], 1, 2, []⟩] [0, 1]).map Win.speaker).dedup.length
        = numClusters 0 ([⟨[0], 0, 1, []⟩, ⟨[1], 1, 2, []⟩] : List Win).length := by
  refine ⟨by decide, ?_⟩
  exact ((C5_label_counts 0 [⟨[0], 0, 1, []⟩, ⟨[1], 1, 2, []⟩] [0, 1]
    [] (by decide)).1 (by decide) (by decide)).1

/-- The two diarization methods `transcribe_file` can attempt. -/
inductive DiarMethod where
  | wavlm
  | pyannote
deriving DecidableEq, Repr

/-- Model of the dict comprehension
`{idx: seg.speaker for idx, seg in enumerate(segments_list) if seg.speaker}`
(lines 1249 and 1365): a segment contributes iff its speaker is truthy,
i.e. neither `None` nor the empty string. -/
def segLabels (segs : List Seg) : List (ℕ × List Char) :=
  segs.enum.filterMap (fun p =>
    p.2.speaker.bind (fun s => if s = [] then none else some (p.1, s)))

/-- Labels the WavLM attempt leaves in `speaker_labels`: empty when WavLM
is not configured (line 1070) and on an exception (lines 1256–1260,
`speaker_labels = {}`). -/
def wavlmLabelsOf (wavlmAvail : Bool)
    (wavlmRes : Except Unit (List (ℕ × List Char))) : List (ℕ × List Char) :=
  if wavlmAvail then
    match wavlmRes with
    | .ok l => l
    | .error _ => []
  else []

/-- Selector of `transcribe_file` (lines 1070 and 1262–1263): WavLM is
attempted first when configured; pyannote is attempted only when
`speaker_labels` is still empty and the pipeline is configured; an
exception in pyannote again leaves `speaker_labels = {}` (line 1382).
The second component records which diarizers were attempted. -/
def selectorRun (wavlmAvail : Bool) (wavlmRes : Except Unit (List (ℕ × List Char)))
    (pyAvail : Bool) (pyRes : Except Unit (List (ℕ × List Char))) :
    List (ℕ × List Char) × List DiarMethod :=
  if (wavlmLabelsOf wavlmAvail wavlmRes).isEmpty ∧ pyAvail then
    ((match pyRes with
      | .ok l => l
      | .error _ => []),
     (if wavlmAvail then [DiarMethod.wavlm] else []) ++ [DiarMethod.pyannote])
  else (wavlmLabelsOf wavlmAvail wavlmRes,
        if wavlmAvail then [DiarMethod.wavlm] else [])

theorem mkLabel_ne_nil (i : ℕ) : mkLabel i ≠ [] := by
  unfold mkLabel labelStem
  simp

theorem labelWindows_speaker_mem :
    ∀ (wins : List Win) (ids : List ℕ) (x : Win), x ∈ labelWindows wins ids →
      ∃ i, x.speaker = mkLabel i := by
  intro wins
  induction wins with
  | nil => intro ids x hx; simp [labelWindows] at hx
  | cons w wins ih =>
    intro ids x hx
    cases ids with
    | nil => simp [labelWindows] at hx
    | cons i ids =>
      rcases List.mem_cons.mp hx with h1 | h2
      · exact ⟨i, by rw [h1]⟩
      · exact ih ids x h2

theorem assignWord_speaker_form (lwins : List Win) (idx : ℕ) (w : Word)
    (hform : ∀ x ∈ lwins, ∃ i, x.speaker = mkLabel i) :
    ∃ s, (assignWord lwins idx w).speaker = some s ∧ s ≠ [] := by
  unfold assignWord
  cases hb : bestLabel (votesFor lwins idx) with
  | some b =>
    refine ⟨b, rfl, ?_⟩
    have hmem := (bestLabel_spec _ b hb).1
    unfold votesFor at hmem
    obtain ⟨x, hx, hxs⟩ := List.mem_map.mp hmem
    obtain ⟨i, hi⟩ := hform x (List.mem_of_mem_filter hx)
    rw [← hxs, hi]
    exact mkLabel_ne_nil i
  | none =>
    cases lwins with
    | nil => exact ⟨defaultLabel, rfl, by decide⟩
    | cons s0 rest =>
      refine ⟨(nearestWin ((w.start + w.stop) / 2) s0 rest).speaker, rfl, ?_⟩
      have hmem := (nearestWin_spec ((w.start + w.stop) / 2) rest s0).1
      obtain ⟨i, hi⟩ := hform _ hmem
      rw [hi]
      exact mkLabel_ne_nil i

theorem wavlmAssignAll_speaker_form (requested : ℕ) (wins : List Win)
    (ids : List ℕ) (words : List Word) :
    ∀ w ∈ wavlmAssignAll requested wins ids words,
      ∃ s, w.speaker = some s ∧ s ≠ [] := by
  intro w hw
  unfold wavlmAssignAll at hw
  by_cases hN : wins.length < 2
  · rw [if_pos hN] at hw
    obtain ⟨u, _, hu⟩ := List.mem_map.mp hw
    exact ⟨defaultLabel, by rw [← hu], by decide⟩
  · rw [if_neg hN] at hw
    unfold assignSpeakers at hw
    obtain ⟨p, _, hp⟩ := List.mem_map.mp hw
    rw [← hp]
    exact assignWord_speaker_form _ p.1 p.2
      (fun x hx => labelWindows_speaker_mem wins ids x hx)

theorem wavlmAssignAll_length (requested : ℕ) (wins : List Win)
    (ids : List ℕ) (words : List Word) :
    (wavlmAssignAll requested wins ids words).length = words.length := by
  unfold wavlmAssignAll
  by_cases hN : wins.length < 2
  · rw [if_pos hN, List.length_map]
  · rw [if_neg hN]
    unfold assignSpeakers
    rw [List.length_map, List.enum_length]

theorem resegment_head_speaker (w : Word) (ws : List Word) :
    ∃ g segs', resegment (w :: ws) = g :: segs' ∧ g.speaker = w.speaker := by
  rw [resegment_eq, runs]
  exact ⟨_, _, rfl, rfl⟩

theorem segLabels_cons_ne_nil (g : Seg) (segs' : List Seg) (s : List Char)
    (hspk : g.speaker = some s) (hne : s ≠ []) :
    segLabels (g :: segs') ≠ [] := by
  unfold segLabels
  rw [List.enum_cons, List.filterMap_cons]
  have hf : ((0 : ℕ), g).2.speaker.bind
      (fun s => if s = [] then none else some (((0 : ℕ), g).1, s)) = some (0, s) := by
    show g.speaker.bind (fun s => if s = [] then none else some (0, s)) = some (0, s)
    rw [hspk]
    show (if s = [] then none else some (0, s)) = some (0, s)
    rw [if_neg hne]
  rw [hf]
  simp

/-- The full WavLM path on a non-empty word stream always produces a
non-empty label map (clustered labels or the deliberate single-speaker
default). -/
theorem wavlm_produces_labels (requested : ℕ) (wins : List Win) (ids : List ℕ)
    (words : List Word) (hwords : words ≠ []) :
    segLabels (resegment (wavlmAssignAll requested wins ids words)) ≠ [] := by
  cases hout : wavlmAssignAll requested wins ids words with
  | nil =>
    exfalso
    have := wavlmAssignAll_length requested wins ids words
    rw [hout] at this
    cases words with
    | nil => exact hwords rfl
    | cons w ws => simp at this
  | cons w' ws' =>
    obtain ⟨s, hs, hsne⟩ := wavlmAssignAll_speaker_form requested wins ids words w'
      (by rw [hout]; simp)
    obtain ⟨g, segs', hseg, hgspk⟩ := resegment_head_speaker w' ws'
    rw [hseg]
    refine segLabels_cons_ne_nil g segs' s ?_ hsne
    rw [hgspk, hs]

/-- Claim C6: the selector tries the credential-free WavLM diarizer first
and its labels, when non-empty, are authoritative (pyannote is never
attempted); pyannote is attempted exactly when the WavLM attempt left no
labels and the pipeline is configured; an exception in either diarizer
yields empty labels and falls through rather than aborting; and on a
non-empty word stream the WavLM path always produces labels. -/
theorem C6_selector_policy (wavlmAvail pyAvail : Bool)
    (wavlmRes pyRes : Except Unit (List (ℕ × List Char)))
    (requested : ℕ) (wins : List Win) (ids : List ℕ) (words : List Word) :
    (∀ l, wavlmAvail = true → wavlmRes = .ok l → l ≠ [] →
      selectorRun wavlmAvail wavlmRes pyAvail pyRes = (l, [DiarMethod.wavlm]))
    ∧ (DiarMethod.pyannote ∈ (selectorRun wavlmAvail wavlmRes pyAvail pyRes).2
        ↔ wavlmLabelsOf wavlmAvail wavlmRes = [] ∧ pyAvail = true)
    ∧ (wavlmRes = .error () → wavlmLabelsOf wavlmAvail wavlmRes = [])
    ∧ (pyRes = .error () → wavlmLabelsOf wavlmAvail wavlmRes = [] → pyAvail = true →
        selectorRun wavlmAvail wavlmRes pyAvail pyRes
          = ([], (if wavlmAvail then [DiarMethod.wavlm] else []) ++ [DiarMethod.pyannote]))
    ∧ (words ≠ [] →
        segLabels (resegment (wavlmAssignAll requested wins ids words)) ≠ []) := by
  refine ⟨?_, ?_, ?_, ?_, wavlm_produces_labels requested wins ids words⟩
  · intro l havail hres hlne
    subst havail
    subst hres
    have hlab : wavlmLabelsOf true (Except.ok l) = l := rfl
    have hcond : ¬((wavlmLabelsOf true (Except.ok l)).isEmpty ∧ pyAvail = true) := by
      intro hc
      rw [hlab] at hc
      exact hlne (List.isEmpty_iff.mp hc.1)
    unfold selectorRun
    rw [if_neg hcond, hlab, if_pos rfl]
  · unfold selectorRun
    by_cases hcond : ((wavlmLabelsOf wavlmAvail wavlmRes).isEmpty ∧ pyAvail = true)
    · simp only [if_pos hcond]
      constructor
      · intro _
        exact ⟨List.isEmpty_iff.mp hcond.1, hcond.2⟩
      · intro _
        simp
    · simp only [if_neg hcond]
      constructor
      · intro hmem
        exfalso
        by_cases hav : wavlmAvail
        · rw [if_pos hav] at hmem
          simp at hmem
        · rw [if_neg hav] at hmem
          simp at hmem
      · intro ⟨h1, h2⟩
        exact absurd ⟨List.isEmpty_iff.mpr h1, h2⟩ hcond
  · intro hres
    unfold wavlmLabelsOf
    rw [hres]
    by_cases hav : wavlmAvail
    · rw [if_pos hav]
    · rw [if_neg hav]
  · intro hres hempty hav
    unfold selectorRun
    rw [if_pos ⟨List.isEmpty_iff.mpr hempty, hav⟩, hres]

/-- Witness for C6: WavLM configured and succeeding with one label — the
selector returns exactly that label map and attempts only WavLM. -/
theorem C6_selector_policy_witness :
    selectorRun true (.ok [(0, ['A'])]) true (.ok [(0, ['B'])])
      = ([(0, ['A'])], [DiarMethod.wavlm])
    ∧ ((['x'] : List Char) ≠ []) := by
  refine ⟨?_, by decide⟩
  exact (C6_selector_policy true true (.ok [(0, ['A'])]) (.ok [(0, ['B'])])
    0 [] [] []).1 [(0, ['A'])] rfl rfl (by decide)

/-- What a queued file presents to `transcribe_file`: the transcription
stage either raises or yields segments with these end times. -/
inductive FileInput where
  | throws : FileInput
  | segs (ends : List ℚ) : FileInput
deriving DecidableEq, Repr

/-- Observable per-file outcome: skipped before starting (stop observed at
the file boundary), abandoned mid segment loop (stop observed during the
loop; no diarization, no write), failed (transcription exception caught at
lines 1411–1417; no output file), or written (loop drained, diarization
and write completed; the count is the number of processed segments). -/
inductive FileOutcome where
  | skipped
  | abortedByStop (processed : ℕ)
  | failed
  | written (processed : ℕ)
deriving DecidableEq, Repr

/-- Segment loop of `transcribe_file` (lines 1045–1058): the stop flag is
polled once per segment iteration, at consecutive global check times;
observing it returns early, abandoning the file. When the loop drains,
diarization and write follow with no further checks (lines 1060–1408),
so the file is written. -/
def segLoop (stop : ℕ → Bool) : ℕ → ℕ → List ℚ → ℕ × FileOutcome
  | t, processed, [] => (t, FileOutcome.written processed)
  | t, processed, _ :: rest =>
    if stop t then (t + 1, FileOutcome.abortedByStop processed)
    else segLoop stop (t + 1) (processed + 1) rest

/-- One `transcribe_file` call: a transcription exception is caught and
the file fails (no stop checks consumed before the loop starts). -/
def transcribeFileG (stop : ℕ → Bool) (t : ℕ) : FileInput → ℕ × FileOutcome
  | FileInput.throws => (t, FileOutcome.failed)
  | FileInput.segs ends => segLoop stop t 0 ends

/-- File loop of `process_files` (lines 987–1001): the stop flag is
checked before each file; once observed, the loop breaks and every
remaining file is skipped. -/
def processFilesG (stop : ℕ → Bool) : ℕ → List FileInput → List FileOutcome
  | _, [] => []
  | t, f :: fs =>
    if stop t then (f :: fs).map (fun _ => FileOutcome.skipped)
    else
      (transcribeFileG stop (t + 1) f).2 ::
        processFilesG stop (transcribeFileG stop (t + 1) f).1 fs

/-- Modelled from the spec (claim C7's reading): the in-flight file's
segment loop always drains all segments, and the cancellation flag is
checked only once, after the loop finishes. -/
def transcribeFileAfterLoop (stop : ℕ → Bool) (t : ℕ) : FileInput → ℕ × FileOutcome
  | FileInput.throws => (t, FileOutcome.failed)
  | FileInput.segs ends =>
    if stop (t + ends.length) then
      (t + ends.length + 1, FileOutcome.abortedByStop ends.length)
    else (t + ends.length + 1, FileOutcome.written ends.length)

theorem segLoop_complete (stop : ℕ → Bool) :
    ∀ (ends : List ℚ) (t processed : ℕ),
      (∀ k, k < ends.length → stop (t + k) = false) →
      segLoop stop t processed ends = (t + ends.length, FileOutcome.written (processed + ends.length)) := by
  intro ends
  induction ends with
  | nil => intro t processed _; simp [segLoop]
  | cons e rest ih =>
    intro t processed hstop
    have h0 : stop t = false := by simpa using hstop 0 (Nat.succ_pos _)
    show (if stop t then _ else segLoop stop (t + 1) (processed + 1) rest) = _
    rw [h0]
    simp only [Bool.false_eq_true, if_false]
    rw [ih (t + 1) (processed + 1) (fun k hk => by
      have := hstop (k + 1) (Nat.succ_lt_succ hk)
      simpa [Nat.add_assoc, Nat.add_comm 1 k] using this)]
    simp only [List.length_cons]
    congr 1
    · omega
    · congr 1
      omega

theorem segLoop_abort (stop : ℕ → Bool) :
    ∀ (j : ℕ) (ends : List ℚ) (t processed : ℕ),
      j < ends.length →
      (∀ k, k < j → stop (t + k) = false) → stop (t + j) = true →
      segLoop stop t processed ends = (t + j + 1, FileOutcome.abortedByStop (processed + j)) := by
  intro j
  induction j with
  | zero =>
    intro ends t processed hj _ hstop
    cases ends with
    | nil => simp at hj
    | cons e rest =>
      show (if stop t then (t + 1, FileOutcome.abortedByStop processed) else _) = _
      rw [show stop t = true from by simpa using hstop]
      simp
  | succ j ih =>
    intro ends t processed hj hbefore hstop
    cases ends with
    | nil => simp at hj
    | cons e rest =>
      have h0 : stop t = false := by simpa using hbefore 0 (Nat.succ_pos _)
      show (if stop t then _ else segLoop stop (t + 1) (processed + 1) rest) = _
      rw [h0]
      simp only [Bool.false_eq_true, if_false]
      rw [ih rest (t + 1) (processed + 1) (by simpa using Nat.lt_of_succ_lt_succ hj)
        (fun k hk => by
          have := hbefore (k + 1) (Nat.succ_lt_succ hk)
          simpa [Nat.add_assoc, Nat.add_comm 1 k] using this)
        (by simpa [Nat.add_assoc, Nat.add_comm 1 j] using hstop)]
      congr 1
      · omega
      · congr 1
        omega

/-- Counterexample to claim C7 as stated: with the flag raised during the
segment loop, the code abandons the file after 0 of 3 segments, while a
check made only "after finishing the transcription segment loop" would
have drained all 3 segments first — the two models give different
outcomes on the same input. -/
theorem C7_counterexample :
    transcribeFileG (fun _ => true) 0 (FileInput.segs [1, 2, 3])
      = (1, FileOutcome.abortedByStop 0)
    ∧ transcribeFileAfterLoop (fun _ => true) 0 (FileInput.segs [1, 2, 3])
      = (4, FileOutcome.abortedByStop 3)
    ∧ (transcribeFileG (fun _ => true) 0 (FileInput.segs [1, 2, 3])).2
      ≠ (transcribeFileAfterLoop (fun _ => true) 0 (FileInput.segs [1, 2, 3])).2 := by
  refine ⟨rfl, rfl, by decide⟩

/-- Amended claim C7: cancellation is cooperative; the stop flag is
checked before starting each new file and at the start of each segment
iteration of the in-flight file's transcription loop; once stop is
observed at a file boundary no further file begins; a stop observed
mid-loop abandons that file (no diarization, no write); a segment loop
that drains without observing stop always completes diarization and write
regardless of later flag values; and outcomes of already-processed files
are unaffected by files queued after them (written outputs remain). -/
theorem C7_cancellation (stop : ℕ → Bool) (t : ℕ) (q q2 : List FileInput)
    (ends : List ℚ) (j : ℕ) :
    (stop t = true → processFilesG stop t q = q.map (fun _ => FileOutcome.skipped))
    ∧ ((∀ k, k < ends.length → stop (t + k) = false) →
        transcribeFileG stop t (FileInput.segs ends)
          = (t + ends.length, FileOutcome.written ends.length))
    ∧ (j < ends.length → (∀ k, k < j → stop (t + k) = false) → stop (t + j) = true →
        transcribeFileG stop t (FileInput.segs ends)
          = (t + j + 1, FileOutcome.abortedByStop j))
    ∧ (processFilesG stop t (q ++ q2)).take q.length = processFilesG stop t q := by
  refine ⟨?_, ?_, ?_, ?_⟩
  · intro hstop
    cases q with
    | nil => rfl
    | cons f fs =>
      show (if stop t then _ else _) = _
      rw [hstop]
      simp
  · intro hstop
    show segLoop stop t 0 ends = _
    rw [segLoop_complete stop ends t 0 hstop]
    simp
  · intro hj hbefore hstop
    show segLoop stop t 0 ends = _
    rw [segLoop_abort stop j ends t 0 hj hbefore hstop]
    simp
  · induction q generalizing t with
    | nil => simp [processFilesG]
    | cons f fs ih =>
      by_cases hstop : stop t
      · have hexp : processFilesG stop t ((f :: fs) ++ q2)
            = ((f :: fs) ++ q2).map (fun _ => FileOutcome.skipped) := by
          show processFilesG stop t (f :: (fs ++ q2)) = _
          unfold processFilesG
          rw [if_pos hstop]
          rfl
        have hexp2 : processFilesG stop t (f :: fs)
            = (f :: fs).map (fun _ => FileOutcome.skipped) := by
          unfold processFilesG
          rw [if_pos hstop]
        rw [hexp, hexp2]
        simp
      · have hexp : processFilesG stop t ((f :: fs) ++ q2)
            = (transcribeFileG stop (t + 1) f).2 ::
              processFilesG stop (transcribeFileG stop (t + 1) f).1 (fs ++ q2) := by
          show processFilesG stop t (f :: (fs ++ q2)) = _
          rw [processFilesG]
          rw [if_neg hstop]
        have hexp2 : processFilesG stop t (f :: fs)
            = (transcribeFileG stop (t + 1) f).2 ::
              processFilesG stop (transcribeFileG stop (t + 1) f).1 fs := by
          rw [processFilesG]
          rw [if_neg hstop]
        rw [hexp, hexp2]
        show ((transcribeFileG stop (t + 1) f).2 ::
          processFilesG stop (transcribeFileG stop (t + 1) f).1 (fs ++ q2)).take (fs.length + 1)
            = _
        rw [List.take_succ_cons]
        congr 1
        exact ih _

/-- Witness for C7: the flag rises at global check time 2; the in-flight
3-segment file is abandoned after exactly 2 processed segments. -/
theorem C7_cancellation_witness :
    (2 < ([1, 2, 3] : List ℚ).length)
    ∧ transcribeFileG (fun k => decide (2 ≤ k)) 0 (FileInput.segs [1, 2, 3])
        = (3, FileOutcome.abortedByStop 2) := by
  refine ⟨by decide, ?_⟩
  have h := (C7_cancellation (fun k => decide (2 ≤ k)) 0 [] [] [1, 2, 3] 2).2.2.1
  exact h (by decide)
    (fun k hk => by rw [decide_eq_false_iff_not]; omega)
    (by decide)

/-- Per-file outcome when no cancellation is requested: a transcription
exception fails the file; otherwise the file is written with all its
segments processed. -/
def outcomeNoStop : FileInput → FileOutcome
  | FileInput.throws => FileOutcome.failed
  | FileInput.segs ends => FileOutcome.written ends.length

/-- Completion report of `transcription_complete` (lines 1450–1455):
`None` after a stop ("Stopped by user"), otherwise the reported count —
which the code takes from `len(self.file_queue)`, the number of queued
files. -/
def runReport (stopAtEnd : Bool) (queueLen : ℕ) : Option ℕ :=
  if stopAtEnd then none else some queueLen

/-- Number of files that produced an output file. -/
def countWritten (outs : List FileOutcome) : ℕ :=
  outs.countP (fun o => match o with
    | FileOutcome.written _ => true
    | _ => false)

theorem processFilesG_noStop :
    ∀ (q : List FileInput) (t : ℕ),
      processFilesG (fun _ => false) t q = q.map outcomeNoStop := by
  intro q
  induction q with
  | nil => intro t; rfl
  | cons f fs ih =>
    intro t
    rw [processFilesG]
    rw [if_neg (by simp)]
    have hf : (transcribeFileG (fun _ => false) (t + 1) f).2 = outcomeNoStop f := by
      cases f with
      | throws => rfl
      | segs ends =>
        show (segLoop (fun _ => false) (t + 1) 0 ends).2 = _
        rw [segLoop_complete (fun _ => false) ends (t + 1) 0 (fun _ _ => rfl)]
        show FileOutcome.written (0 + ends.length) = FileOutcome.written ends.length
        rw [Nat.zero_add]
    rw [hf, ih]
    rw [List.map_cons]

/-- Counterexample to claim C9 as stated: with one successful and one
failing file, the completion report counts the whole queue (2 files), not
the number of files that succeeded (1) — `transcription_complete` reports
`len(self.file_queue)`. -/
theorem C9_report_counterexample :
    processFilesG (fun _ => false) 0 [FileInput.segs [1], FileInput.throws]
      = [FileOutcome.written 1, FileOutcome.failed]
    ∧ countWritten (processFilesG (fun _ => false) 0
        [FileInput.segs [1], FileInput.throws]) = 1
    ∧ runReport false ([FileInput.segs [1], FileInput.throws] : List FileInput).length
        = some 2
    ∧ runReport false ([FileInput.segs [1], FileInput.throws] : List FileInput).length
        ≠ some (countWritten (processFilesG (fun _ => false) 0
            [FileInput.segs [1], FileInput.throws])) := by
  refine ⟨by decide, by decide, rfl, by decide⟩

/-- Amended claim C9: a transcription-stage exception is fatal only for
the current file — it is caught and the file yields no output, every
other queued file is processed exactly as it would have been, the loop
runs to completion, and the run reports completion with the total number
of queued files (not the number that succeeded). -/
theorem C9_per_file_failure (t : ℕ) (q1 q2 : List FileInput) :
    processFilesG (fun _ => false) t (q1 ++ FileInput.throws :: q2)
      = q1.map outcomeNoStop ++ FileOutcome.failed :: q2.map outcomeNoStop
    ∧ (∀ ends, outcomeNoStop (FileInput.segs ends) = FileOutcome.written ends.length)
    ∧ runReport false (q1 ++ FileInput.throws :: q2).length
        = some (q1 ++ FileInput.throws :: q2).length := by
  refine ⟨?_, fun _ => rfl, rfl⟩
  rw [processFilesG_noStop]
  simp [outcomeNoStop]

/-- Diarization sub-stage writes to `self.current_progress`: 96 when the
WavLM attempt starts (line 1074), 98 when it completes with labels (line
1254); 96 when the pyannote attempt starts (line 1267), 98 when it
completes (line 1370). -/
def diarProgressSteps (wavlmAvail w98 pyAttempted py98 : Bool) : List ℚ :=
  (if wavlmAvail then 96 :: (if w98 then [98] else []) else [])
  ++ (if pyAttempted then 96 :: (if py98 then [98] else []) else [])

/-- Shared per-file progress values in write order: the reset to 0 (line
1037), the per-segment values `min(95.0, last_end/total*100)` — written
only when `total_duration > 0` (lines 1055–1058) — the pre-diarization 95
(line 1062), and the diarization sub-stage values.  The write stage makes
no further progress writes. -/
def fileProgressTrace (total : ℚ) (segEnds : List ℚ) (diarSteps : List ℚ) : List ℚ :=
  0 :: ((if 0 < total then segEnds.map (fun e => min 95 (e / total * 100)) else [])
    ++ 95 :: diarSteps)

theorem diarSteps_chain (wa w98 pa py98 : Bool) (hexcl : ¬(w98 = true ∧ pa = true)) :
    List.Chain' (· ≤ ·) ((95 : ℚ) :: diarProgressSteps wa w98 pa py98)
    ∧ ∀ v ∈ diarProgressSteps wa w98 pa py98, 95 ≤ v ∧ v ≤ 98 := by
  cases w98 with
  | true =>
    cases pa with
    | true => exact absurd ⟨rfl, rfl⟩ hexcl
    | false =>
      cases wa <;> cases py98 <;>
        exact ⟨by norm_num [diarProgressSteps, List.chain'_cons], by decide⟩
  | false =>
    cases wa <;> cases pa <;> cases py98 <;>
      exact ⟨by norm_num [diarProgressSteps, List.chain'_cons], by decide⟩

theorem loopVals_bounds (total : ℚ) (htot : 0 < total) (e : ℚ) (he : 0 ≤ e) :
    0 ≤ min 95 (e / total * 100) ∧ min 95 (e / total * 100) ≤ 95 := by
  constructor
  · apply le_min
    · norm_num
    · apply mul_nonneg
      · exact div_nonneg he (le_of_lt htot)
      · norm_num
  · exact min_le_left _ _

/-- Counterexample to claim C8 as stated: a fully successful run (one
segment, WavLM diarization succeeding, file written) never writes 100 to
the shared per-file progress value — the trace ends at 98. -/
theorem C8_counterexample :
    fileProgressTrace 1 [1] (diarProgressSteps true true false false)
      = [0, 95, 95, 96, 98]
    ∧ (100 : ℚ) ∉ fileProgressTrace 1 [1] (diarProgressSteps true true false false)
    ∧ (fileProgressTrace 1 [1] (diarProgressSteps true true false false)).getLast?
        = some 98 := by
  have h1 : fileProgressTrace 1 [1] (diarProgressSteps true true false false)
      = [0, 95, 95, 96, 98] := by
    unfold fileProgressTrace diarProgressSteps
    rw [if_pos (by norm_num : (0 : ℚ) < 1)]
    norm_num
  refine ⟨h1, by rw [h1]; decide, by rw [h1]; rfl⟩

/-- Amended claim C8: within each file's run the shared progress value is
monotonically non-decreasing and stays in [0, 98]: it is computed from
processed audio time over total duration capped at 95 before
diarization, advanced to values in 96–98 during diarization sub-stages,
and is never advanced to 100 — write completion leaves it at its last
value.  (That WavLM's 98 excludes a subsequent pyannote attempt is the
selector property of C6; the lock discipline around reads and writes is a
concurrency property outside this model, where each write is one trace
entry.) -/
theorem C8_progress_invariant (total : ℚ) (segEnds : List ℚ)
    (wavlmAvail w98 pyAttempted py98 : Bool)
    (hends : segEnds.Chain' (· ≤ ·)) (hnn : ∀ e ∈ segEnds, 0 ≤ e)
    (hexcl : ¬(w98 = true ∧ pyAttempted = true)) :
    (fileProgressTrace total segEnds
      (diarProgressSteps wavlmAvail w98 pyAttempted py98)).Chain' (· ≤ ·)
    ∧ (∀ v ∈ fileProgressTrace total segEnds
        (diarProgressSteps wavlmAvail w98 pyAttempted py98), 0 ≤ v ∧ v ≤ 98)
    ∧ (100 : ℚ) ∉ fileProgressTrace total segEnds
        (diarProgressSteps wavlmAvail w98 pyAttempted py98) := by
  obtain ⟨hdchain, hdbounds⟩ := diarSteps_chain wavlmAvail w98 pyAttempted py98 hexcl
  have hbounds : ∀ v ∈ fileProgressTrace total segEnds
      (diarProgressSteps wavlmAvail w98 pyAttempted py98), 0 ≤ v ∧ v ≤ 98 := by
    intro v hv
    unfold fileProgressTrace at hv
    rcases List.mem_cons.mp hv with h0 | hv
    · rw [h0]; norm_num
    rcases List.mem_append.mp hv with hl | hr
    · by_cases htot : 0 < total
      · rw [if_pos htot] at hl
        obtain ⟨e, he, hev⟩ := List.mem_map.mp hl
        obtain ⟨h1, h2⟩ := loopVals_bounds total htot e (hnn e he)
        rw [← hev]
        exact ⟨h1, le_trans h2 (by norm_num)⟩
      · rw [if_neg htot] at hl
        simp at hl
    rcases List.mem_cons.mp hr with h95 | hd
    · rw [h95]; norm_num
    · obtain ⟨h1, h2⟩ := hdbounds v hd
      exact ⟨le_trans (by norm_num) h1, h2⟩
  refine ⟨?_, hbounds, ?_⟩
  · unfold fileProgressTrace
    rw [show ((0 : ℚ) :: ((if 0 < total then
        segEnds.map (fun e => min 95 (e / total * 100)) else [])
      ++ 95 :: diarProgressSteps wavlmAvail w98 pyAttempted py98))
      = ((0 : ℚ) :: (if 0 < total then
          segEnds.map (fun e => min 95 (e / total * 100)) else []))
        ++ 95 :: diarProgressSteps wavlmAvail w98 pyAttempted py98 from rfl]
    rw [List.chain'_append]
    refine ⟨?_, hdchain, ?_⟩
    · rw [List.chain'_cons']
      by_cases htot : 0 < total
      · rw [if_pos htot]
        constructor
        · intro y hy
          have hmem : y ∈ segEnds.map (fun e => min 95 (e / total * 100)) :=
            List.mem_of_mem_head? hy
          obtain ⟨e, he, hev⟩ := List.mem_map.mp hmem
          rw [← hev]
          exact (loopVals_bounds total htot e (hnn e he)).1
        · rw [List.chain'_map]
          refine hends.imp ?_
          intro a b hab
          exact min_le_min le_rfl (mul_le_mul_of_nonneg_right
            ((div_le_div_iff_of_pos_right htot).mpr hab) (by norm_num))
      · rw [if_neg htot]
        exact ⟨by intro y hy; simp at hy, by simp⟩
    · intro x hx y hy
      simp only [List.head?_cons, Option.mem_def, Option.some.injEq] at hy
      rw [← hy]
      have hxmem := List.mem_of_mem_getLast? hx
      rcases List.mem_cons.mp hxmem with h0 | hl
      · rw [h0]; norm_num
      · by_cases htot : 0 < total
        · rw [if_pos htot] at hl
          obtain ⟨e, he, hev⟩ := List.mem_map.mp hl
          rw [← hev]
          exact (loopVals_bounds total htot e (hnn e he)).2
        · rw [if_neg htot] at hl
          simp at hl
  · intro hmem
    have := (hbounds 100 hmem).2
    norm_num at this

/-- Witness for C8: the concrete successful single-segment run satisfies
the monotonicity invariant. -/
theorem C8_progress_invariant_witness :
    (¬((true : Bool) = true ∧ (false : Bool) = true))
    ∧ (fileProgressTrace 1 [1]
        (diarProgressSteps true true false false)).Chain' (· ≤ ·) := by
  refine ⟨by decide, ?_⟩
  exact (C8_progress_invariant 1 [1] true true false false
    (List.chain'_singleton 1) (by decide) (by decide)).1

/-- Python float modulo `x % m` for a positive modulus:
`x - m * floor(x / m)` (exact on the rational model). -/
def qmod (x m : ℚ) : ℚ := x - m * ⌊x / m⌋

/-- Python `int(seconds // 3600)` of `format_timestamp` (line 1420). -/
def tsHours (s : ℚ) : ℤ := ⌊s / 3600⌋

/-- Python `int((seconds % 3600) // 60)` (line 1421). -/
def tsMinutes (s : ℚ) : ℤ := ⌊qmod s 3600 / 60⌋

/-- Python `int(seconds % 60)` (line 1422): truncation toward zero, which
equals the floor for the non-negative values handled here. -/
def tsSecs (s : ℚ) : ℤ := ⌊qmod s 60⌋

/-- Rendering `f"{hours:02d}:{minutes:02d}:{secs:02d}"` (line 1423). -/
def format_timestamp (s : ℚ) : List Char :=
  pad2 (decRepr (tsHours s).toNat) ++ ':' :: pad2 (decRepr (tsMinutes s).toNat)
    ++ ':' :: pad2 (decRepr (tsSecs s).toNat)

theorem qmod_bounds (x m : ℚ) (hx : 0 ≤ x) (hm : 0 < m) :
    0 ≤ qmod x m ∧ qmod x m < m := by
  have hmne : m ≠ 0 := ne_of_gt hm
  have heq : qmod x m = m * Int.fract (x / m) := by
    unfold qmod Int.fract
    field_simp
  constructor
  · rw [heq]
    exact mul_nonneg (le_of_lt hm) (Int.fract_nonneg _)
  · rw [heq]
    calc m * Int.fract (x / m) < m * 1 :=
          (mul_lt_mul_left hm).mpr (Int.fract_lt_one _)
    _ = m := mul_one m

theorem pad2_length (l : List Char) : (pad2 l).length = max 2 l.length := by
  unfold pad2
  rw [List.length_append, List.length_replicate]
  omega

theorem decRepr_length_le_two (n : ℕ) (hn : n < 100) : (decRepr n).length ≤ 2 := by
  unfold decRepr
  by_cases h0 : n = 0
  · rw [if_pos h0]
    norm_num
  · rw [if_neg h0, decDigits_eq]
    rw [List.length_map, List.length_reverse]
    rw [Nat.digits_len 10 n (by norm_num) h0]
    have : Nat.log 10 n < 2 := Nat.log_lt_of_lt_pow h0 (by norm_num; omega)
    omega

theorem decRepr_length_pos (n : ℕ) : 1 ≤ (decRepr n).length := by
  unfold decRepr
  by_cases h0 : n = 0
  · rw [if_pos h0]; norm_num
  · rw [if_neg h0, decDigits_eq, List.length_map, List.length_reverse]
    rw [Nat.digits_len 10 n (by norm_num) h0]
    omega

/-- Claim C10: for every non-negative number of seconds the timestamp is
three colon-separated fields, each zero-padded to at least two digits
(minutes and seconds exactly two digits, in 0..59), and the fields
decompose the floor of the input — the fractional part is discarded, so
boundaries render at whole-second precision. -/
theorem C10_format_timestamp (s : ℚ) (hs : 0 ≤ s) :
    0 ≤ tsHours s
    ∧ 0 ≤ tsMinutes s ∧ tsMinutes s < 60
    ∧ 0 ≤ tsSecs s ∧ tsSecs s < 60
    ∧ 3600 * tsHours s + 60 * tsMinutes s + tsSecs s = ⌊s⌋
    ∧ format_timestamp s
        = pad2 (decRepr (tsHours s).toNat) ++ ':' :: pad2 (decRepr (tsMinutes s).toNat)
            ++ ':' :: pad2 (decRepr (tsSecs s).toNat)
    ∧ (pad2 (decRepr (tsMinutes s).toNat)).length = 2
    ∧ (pad2 (decRepr (tsSecs s).toNat)).length = 2
    ∧ 2 ≤ (pad2 (decRepr (tsHours s).toNat)).length := by
  have h3600 : (0 : ℚ) < 3600 := by norm_num
  have h60 : (0 : ℚ) < 60 := by norm_num
  obtain ⟨hq1, hq2⟩ := qmod_bounds s 3600 hs h3600
  obtain ⟨hr1, hr2⟩ := qmod_bounds s 60 hs h60
  have hhours : 0 ≤ tsHours s := by
    unfold tsHours
    rw [Int.floor_nonneg]
    exact div_nonneg hs (le_of_lt h3600)
  have hmin0 : 0 ≤ tsMinutes s := by
    unfold tsMinutes
    rw [Int.floor_nonneg]
    exact div_nonneg hq1 (le_of_lt h60)
  have hmin60 : tsMinutes s < 60 := by
    unfold tsMinutes
    rw [Int.floor_lt]
    push_cast
    rw [div_lt_iff h60]
    calc qmod s 3600 < 3600 := hq2
    _ = 60 * 60 := by norm_num
  have hsec0 : 0 ≤ tsSecs s := by
    unfold tsSecs
    rw [Int.floor_nonneg]
    exact hr1
  have hsec60 : tsSecs s < 60 := by
    unfold tsSecs
    rw [Int.floor_lt]
    push_cast
    exact hr2
  have hdecomp : 3600 * tsHours s + 60 * tsMinutes s + tsSecs s = ⌊s⌋ := by
    have hm : tsMinutes s = ⌊s / 60⌋ - 60 * tsHours s := by
      unfold tsMinutes qmod tsHours
      have harg : (s - 3600 * (⌊s / 3600⌋ : ℚ)) / 60
          = s / 60 - ((60 * ⌊s / 3600⌋ : ℤ) : ℚ) := by
        push_cast
        ring
      rw [harg, Int.floor_sub_int]
    have hc : tsSecs s = ⌊s⌋ - 60 * ⌊s / 60⌋ := by
      unfold tsSecs qmod
      have harg : s - 60 * (⌊s / 60⌋ : ℚ) = s - ((60 * ⌊s / 60⌋ : ℤ) : ℚ) := by
        push_cast
        ring
      rw [harg, Int.floor_sub_int]
    rw [hm, hc]
    ring
  have hminlen : (pad2 (decRepr (tsMinutes s).toNat)).length = 2 := by
    rw [pad2_length]
    have : (tsMinutes s).toNat < 100 := by omega
    have hle := decRepr_length_le_two _ this
    omega
  have hseclen : (pad2 (decRepr (tsSecs s).toNat)).length = 2 := by
    rw [pad2_length]
    have : (tsSecs s).toNat < 100 := by omega
    have hle := decRepr_length_le_two _ this
    omega
  have hhourlen : 2 ≤ (pad2 (decRepr (tsHours s).toNat)).length := by
    rw [pad2_length]
    omega
  exact ⟨hhours, hmin0, hmin60, hsec0, hsec60, hdecomp, rfl, hminlen, hseclen, hhourlen⟩

/-- Witness for C10 at 3725 seconds (1 hour, 2 minutes, 5 seconds). -/
theorem C10_format_timestamp_witness :
    (0 : ℚ) ≤ 3725
    ∧ 3600 * tsHours 3725 + 60 * tsMinutes 3725 + tsSecs 3725 = ⌊(3725 : ℚ)⌋ := by
  refine ⟨by norm_num, ?_⟩
  exact (C10_format_timestamp 3725 (by norm_num)).2.2.2.2.2.1
